import Mathlib

/-!
Verification of the `fdu` disk-usage analyser (`src/fdu`).

This file shallowly embeds the data model and the operations of the
repository in Lean:

* `util.py`: `_skip`, `agg_none`, `formatsize`, `parsesize`, `walk_tree`
  (the stack-driven traversal loop, embedded with an explicit fuel
  parameter; with sufficient fuel the loop always terminates, mirroring
  the Python loop, and the fuel bound is proved sufficient);
* `orm.py`: the `ScanStatus` enum, the `Directory` record
  (`DirPayload` holds every field other than the child map;
  `Directory`/`Subdirs` is the in-memory tree with its ordered
  name-keyed child map), `Directory._sum_subdirs` and the sorted
  `Directory.children` property;
* `fdu.py`: `exclude_subdir`, `_process_dir`, the worker loop of
  `scan_path` (as a small-step transition relation `ScanStep` so that
  every completion order of the worker pool is covered), `build_tree`,
  `extract_subtree` and `filter_tree`.

Machine integers do not overflow here (Python ints are unbounded), so
sizes and times are `Int`/`Nat`.  Errors (`raise`) are `Except`/`Option`
results.

The file is organised as definitions first (including the few
structural lemmas that termination measures of later definitions
depend on), then the verification theorems.
-/

namespace Fdu

/-- Embedding of `util._skip`: drop the `None` entries of a list. -/
def _skip {T : Type} (xl : List (Option T)) : List T :=
  xl.filterMap id

/-- Embedding of `util.agg_none`: aggregate a list with `f`, skipping
`None` values; if nothing is left the result is `None`. -/
def agg_none {T : Type} (xl : List (Option T)) (f : List T → T) : Option T :=
  if (_skip xl).length = 0 then none else some (f (_skip xl))

/-- Embedding of Python's built-in `sum` on a list of ints
(left fold with initial value `0`). -/
def pySum (l : List Int) : Int :=
  l.foldl (· + ·) 0

/-- Embedding of Python's built-in `max` on a list of ints.  Python
raises on an empty list; `agg_none` only ever applies it to non-empty
lists, so the `[]` case (here `0`) is unreachable. -/
def pyMax : List Int → Int
  | [] => 0
  | x :: xs => xs.foldl max x

/-- Specification-side addition on optional values: `none` is the
identity, two present values add. -/
def optAdd : Option Int → Option Int → Option Int
  | none, b => b
  | some a, none => some a
  | some a, some b => some (a + b)

/-- Specification-side maximum on optional values: `none` is the
identity, two present values combine with `max`. -/
def optMax : Option Int → Option Int → Option Int
  | none, b => b
  | some a, none => some a
  | some a, some b => some (max a b)

/-! ## Data model: `orm.ScanStatus`, `orm.Directory` -/

/-- Embedding of `orm.ScanStatus`. -/
inductive ScanStatus where
  | NOT_SCANNED
  | SUCCESSFUL
  | SKIPPED_PERMISSION
  | SKIPPED_EXCLUDE
deriving Repr, DecidableEq

/-- The fields of an `orm.Directory` object other than its transient
`subdirectories` map: the persisted columns (`id`, `parent`, `name`,
`mtime`, `scan_status`), the per-directory aggregates set by
`Directory.query_totals` (or left `None`, the class default), the
subtree aggregates set by `Directory._sum_subdirs`, and the `path`
attribute set by `fdu.build_tree` (a path is a list of components). -/
structure DirPayload where
  id : Nat
  parent_id : Option Nat
  name : String
  mtime : Int
  scan_status : ScanStatus
  file_count_dir : Option Int
  allocated_size_dir : Option Int
  apparent_size_dir : Option Int
  mtime_dir : Option Int
  file_count_tree : Option Int
  allocated_size_tree : Option Int
  apparent_size_tree : Option Int
  mtime_tree : Option Int
  path : List String
deriving Repr, DecidableEq

mutual
/-- An in-memory `orm.Directory` node as reconstructed by
`fdu.build_tree`: its scalar fields plus the ordered name-keyed map of
subdirectories (a Python `dict`, here an ordered association list). -/
inductive Directory where
  | mk (info : DirPayload) (subdirectories : Subdirs)
deriving Repr
/-- The ordered name-keyed child map `Directory.subdirectories`. -/
inductive Subdirs where
  | nil
  | cons (name : String) (child : Directory) (rest : Subdirs)
deriving Repr
end

def Directory.info : Directory → DirPayload
  | .mk i _ => i

def Directory.subdirectories : Directory → Subdirs
  | .mk _ s => s

mutual
def Directory.decEq : (a b : Directory) → Decidable (a = b)
  | .mk i s, .mk i2 s2 =>
    if h1 : i = i2 then
      match Subdirs.decEq s s2 with
      | isTrue h2 => isTrue (by rw [h1, h2])
      | isFalse h2 => isFalse (fun h => h2 (by injection h))
    else isFalse (fun h => h1 (by injection h))
def Subdirs.decEq : (a b : Subdirs) → Decidable (a = b)
  | .nil, .nil => isTrue rfl
  | .nil, .cons _ _ _ => isFalse (fun h => Subdirs.noConfusion h)
  | .cons _ _ _, .nil => isFalse (fun h => Subdirs.noConfusion h)
  | .cons n c r, .cons n2 c2 r2 =>
    if h1 : n = n2 then
      match Directory.decEq c c2 with
      | isTrue h2 =>
        match Subdirs.decEq r r2 with
        | isTrue h3 => isTrue (by rw [h1, h2, h3])
        | isFalse h3 => isFalse (fun h => h3 (by injection h))
      | isFalse h2 => isFalse (fun h => h2 (by injection h))
    else isFalse (fun h => h1 (by injection h))
end

instance : DecidableEq Directory := Directory.decEq

instance : DecidableEq Subdirs := Subdirs.decEq

/-- The entries of a child map, in insertion order. -/
def Subdirs.toList : Subdirs → List (String × Directory)
  | .nil => []
  | .cons n c r => (n, c) :: r.toList

def Subdirs.ofList : List (String × Directory) → Subdirs
  | [] => .nil
  | (n, c) :: r => .cons n c (Subdirs.ofList r)

/-- Lookup in a child map (`self.subdirectories[name]`). -/
def Subdirs.lookup : Subdirs → String → Option Directory
  | .nil, _ => none
  | .cons n c r, key => if n = key then some c else r.lookup key

/-- Insertion into a Python `dict`: an existing key keeps its position
and is given the new value, a new key is appended at the end. -/
def Subdirs.dictInsert : Subdirs → String → Directory → Subdirs
  | .nil, key, v => .cons key v .nil
  | .cons n c r, key, v =>
    if n = key then .cons n v r else .cons n c (r.dictInsert key v)

mutual
/-- Number of nodes of a tree (termination measure). -/
def Directory.sizeT : Directory → Nat
  | .mk _ s => 1 + s.sizeF
def Subdirs.sizeF : Subdirs → Nat
  | .nil => 0
  | .cons _ c r => c.sizeT + r.sizeF
end

/-- Insertion sort on name-keyed entries, implementing Python
`sorted(self.subdirectories.keys())` in the `children` property. -/
def insertByName (e : String × Directory) :
    List (String × Directory) → List (String × Directory)
  | [] => [e]
  | x :: r => if e.1 ≤ x.1 then e :: x :: r else x :: insertByName e r

def sortByName : List (String × Directory) → List (String × Directory)
  | [] => []
  | x :: r => insertByName x (sortByName r)

/-- Embedding of the `Directory.children` property: the subdirectory
entries sorted by name, values only. -/
def Directory.children (d : Directory) : List Directory :=
  (sortByName d.subdirectories.toList).map (fun c => c.2)

theorem Directory.sizeT_pos (t : Directory) : 0 < t.sizeT := by
  cases t; simp [Directory.sizeT]

theorem insertByName_perm (e : String × Directory) (l : List (String × Directory)) :
    (insertByName e l).Perm (e :: l) := by
  induction l with
  | nil => simp [insertByName]
  | cons x r ih =>
    by_cases h : e.1 ≤ x.1
    · simp [insertByName, h]
    · simp only [insertByName, if_neg h]
      exact (ih.cons x).trans (List.Perm.swap e x r)

theorem sortByName_perm (l : List (String × Directory)) : (sortByName l).Perm l := by
  induction l with
  | nil => simp [sortByName]
  | cons x r ih => exact ((insertByName_perm x (sortByName r)).trans (ih.cons x))

theorem mem_toList_sizeT :
    ∀ (s : Subdirs) (e : String × Directory), e ∈ s.toList → e.2.sizeT < 1 + s.sizeF
  | .nil, e, h => by simp [Subdirs.toList] at h
  | .cons n c r, e, h => by
    simp only [Subdirs.toList, List.mem_cons] at h
    rcases h with h | h
    · subst h; simp only [Subdirs.sizeF]; omega
    · have := mem_toList_sizeT r e h
      simp only [Subdirs.sizeF]; omega

theorem mem_children_sizeT (d : Directory) (c : Directory)
    (h : c ∈ d.children) : c.sizeT < d.sizeT := by
  rcases List.mem_map.mp h with ⟨e, he, hec⟩
  have he2 : e ∈ d.subdirectories.toList :=
    (sortByName_perm d.subdirectories.toList).mem_iff.mp he
  have hlt := mem_toList_sizeT d.subdirectories e he2
  cases d with
  | mk i s =>
    simp only [Directory.subdirectories] at hlt
    simp only [Directory.sizeT]
    rw [← hec]
    omega

/-- The (node, depth) pairs of the whole subtree, root first, children
in `children` order: the reference enumeration of the nodes of a tree. -/
def preFull (d : Directory) (k : Nat) : List (Directory × Nat) :=
  (d, k) :: (d.children.attach.map (fun c => preFull c.1 (k + 1))).flatten
termination_by d.sizeT
decreasing_by exact mem_children_sizeT d c.1 c.2

mutual
/-- All nodes of a tree, in stored (unsorted) pre-order. -/
def Directory.nodesT : Directory → List Directory
  | .mk p cs => .mk p cs :: cs.nodesF
def Subdirs.nodesF : Subdirs → List Directory
  | .nil => []
  | .cons _ c r => c.nodesT ++ r.nodesF
end

/-- All nodes of a tree. -/
def allNodes (d : Directory) : List Directory :=
  d.nodesT

/-! ## `orm.Directory._sum_subdirs` and the aggregation pass of
`fdu.build_tree` -/

/-- Embedding of `orm.Directory._sum_subdirs` at the field level: given
the node's own fields and its (already aggregated) `children` list, it
first copies each `*_dir` aggregate into the `*_tree` slot and then
combines `[self, *self.children]` with `agg_none`, summing counts and
sizes and maximising mtimes.  (The `if self.children is None` guard of
the source can never be taken on a tree produced by `build_tree`, which
gives every node a `subdirectories` dict.) -/
def _sum_subdirs (p : DirPayload) (cs : List Directory) : DirPayload :=
  { p with
    file_count_tree :=
      agg_none (p.file_count_dir :: cs.map (fun c => c.info.file_count_tree)) pySum
    allocated_size_tree :=
      agg_none (p.allocated_size_dir :: cs.map (fun c => c.info.allocated_size_tree)) pySum
    apparent_size_tree :=
      agg_none (p.apparent_size_dir :: cs.map (fun c => c.info.apparent_size_tree)) pySum
    mtime_tree :=
      agg_none (p.mtime_dir :: cs.map (fun c => c.info.mtime_tree)) pyMax }

mutual
/-- The aggregation pass of `fdu.build_tree`:
`walk_tree(root, lambda x, _: x._sum_subdirs(), order="post")`.  The
post-order walk updates every child before its parent, so it is the
bottom-up recursion below. -/
def Directory.aggTree : Directory → Directory
  | .mk p cs =>
    let cs2 := cs.aggF
    .mk (_sum_subdirs p (Directory.children (.mk p cs2))) cs2
def Subdirs.aggF : Subdirs → Subdirs
  | .nil => .nil
  | .cons n c r => .cons n c.aggTree r.aggF
end

/-! ## `fdu.filter_tree` -/

mutual
/-- Embedding of `fdu.filter_tree`: a post-order walk replaces each
node's `subdirectories` dict by the sub-dict of entries whose
(already filtered) child satisfies `f`. -/
def filter_tree (f : Directory → Bool) : Directory → Directory
  | .mk p cs => .mk p (filterF f cs)
def filterF (f : Directory → Bool) : Subdirs → Subdirs
  | .nil => .nil
  | .cons n c r =>
    if f (filter_tree f c) then .cons n (filter_tree f c) (filterF f r) else filterF f r
end

/-! ## `fdu.extract_subtree` -/

/-- Rendering of a path for error messages (`str` of a `pathlib.Path`):
components joined by a slash; an empty component list prints as `.`. -/
def joinPath : List String → String
  | [] => "."
  | [x] => x
  | x :: r => x ++ "/" ++ joinPath r

/-- Embedding of `pathlib.Path.is_relative_to` for component lists:
`base` is an initial segment of the path. -/
def isUnderPath : List String → List String → Bool
  | [], _ => true
  | _ :: _, [] => false
  | b :: bs, p :: ps => b = p && isUnderPath bs ps

/-- The descent loop of `fdu.extract_subtree`: follow the remaining
components through the `subdirectories` dicts; a missing component
raises the not-found `RuntimeError`, whose message is built from the
whole relative path and the root path. -/
def extractGo (rootPath rel : List String) : Directory → List String → Except String Directory
  | node, [] => .ok node
  | node, c :: rest =>
    match node.subdirectories.lookup c with
    | some child => extractGo rootPath rel child rest
    | none =>
      .error ("Requested path " ++ joinPath rel ++ " not found within tree anchored at "
        ++ joinPath rootPath ++ ".")

/-- Embedding of `fdu.extract_subtree`. -/
def extract_subtree (root : Directory) (path : List String) : Except String Directory :=
  if isUnderPath root.info.path path then
    extractGo root.info.path (path.drop root.info.path.length) root
      (path.drop root.info.path.length)
  else
    .error ("Given path=" ++ joinPath path ++ " not within the tree root "
      ++ joinPath root.info.path)

/-- Specification-side descent: follow a list of components through the
child maps, `none` when a component is missing. -/
def walkTo (d : Directory) : List String → Option Directory
  | [] => some d
  | c :: rest =>
    match d.subdirectories.lookup c with
    | some child => walkTo child rest
    | none => none

/-! ## `fdu.build_tree` -/

/-- Insertion into the Python dict `_dir_cache` keyed by `d.id`:
an existing key keeps its position and is given the new value, a new
key is appended. -/
def dictInsertNat (l : List (Nat × DirPayload)) (k : Nat) (v : DirPayload) :
    List (Nat × DirPayload) :=
  match l with
  | [] => [(k, v)]
  | (k2, v2) :: r => if k2 = k then (k2, v) :: r else (k2, v2) :: dictInsertNat r k v

def lookupNat (l : List (Nat × DirPayload)) (k : Nat) : Option DirPayload :=
  match l with
  | [] => none
  | (k2, v2) :: r => if k2 = k then some v2 else lookupNat r k

/-- The first pass of `build_tree` keeps overwriting `root`, so the
root actually used is the LAST record of the iterable whose parent
reference is null. -/
def findLastRoot (recs : List DirPayload) : Option DirPayload :=
  recs.foldl (fun acc d => if d.parent_id = none then some d else acc) none

/-- The id-keyed cache built by the first pass of `build_tree`. -/
def buildCache (recs : List DirPayload) : List (Nat × DirPayload) :=
  recs.foldl (fun acc d => dictInsertNat acc d.id d) []

/-- The name-keyed children dict a node with id `i` ends up with after
the second (linking) pass of `build_tree`: every cached record whose
`parent_id` is `i`, keyed by name, in cache order. -/
def childrenPairs (cache : List (Nat × DirPayload)) (i : Nat) :
    List (String × DirPayload) :=
  cache.foldl
    (fun acc e =>
      match e.2.parent_id with
      | some p => if p = i then dictInsertName acc e.2.name e.2 else acc
      | none => acc)
    []
where
  dictInsertName (l : List (String × DirPayload)) (k : String) (v : DirPayload) :
      List (String × DirPayload) :=
    match l with
    | [] => [(k, v)]
    | (k2, v2) :: r => if k2 = k then (k2, v) :: r else (k2, v2) :: dictInsertName r k v

/-- Path attached by `_add_paths`: because of the Python truthiness
test `if d.parent_id:`, a record whose parent id is missing OR ZERO
gets a path of just its own name. -/
def childPath (parentPath : List String) (child : DirPayload) : List String :=
  match child.parent_id with
  | none => [child.name]
  | some 0 => [child.name]
  | some _ => parentPath ++ [child.name]

/-- Recursive construction of the linked tree reachable from the root,
with the `path` attribute attached as `_add_paths` does.  `fuel` bounds
the depth; with `fuel = cache.length + 1` it can only run out when a
parent cycle is reachable from the root, in which case the Python
`walk_tree` call would not terminate at all. -/
def buildNode (cache : List (Nat × DirPayload)) : Nat → DirPayload → List String → Option Directory
  | 0, _, _ => none
  | fuel + 1, p, path => do
    let subs ← (childrenPairs cache p.id).mapM
      (fun e => (buildNode cache fuel e.2 (childPath path e.2)).map (fun t => (e.1, t)))
    some (.mk { p with path := path } (Subdirs.ofList subs))

/-- Embedding of `fdu.build_tree`.  Pass 1 caches records by id and
remembers the last null-parent record as root; pass 2 raises
`RuntimeError` at the first cached record whose parent id is not in the
cache; using an unassigned `root` raises `UnboundLocalError`; then the
pre-order path pass and the post-order aggregation pass run. -/
def build_tree (recs : List DirPayload) : Except String Directory :=
  match (buildCache recs).find? (fun e =>
      match e.2.parent_id with
      | some p => (lookupNat (buildCache recs) p).isNone
      | none => false) with
  | some e =>
    .error ("Iterable input must contain a complete tree, but can not find the parent_id "
      ++ toString (e.2.parent_id.getD 0) ++ " for " ++ e.2.name)
  | none =>
    match findLastRoot recs with
    | none => .error "UnboundLocalError: local variable root referenced before assignment"
    | some r =>
      match buildNode (buildCache recs) ((buildCache recs).length + 1) r [r.name] with
      | none => .error "walk_tree does not terminate (parent cycle reachable from the root)"
      | some t => .ok t.aggTree

/-- The local correctness property of the aggregation pass at one node:
each subtree aggregate is the node's own per-directory aggregate
combined (with `none` as identity) with the subtree aggregates of its
direct children; sum-like for count and the two sizes, max-like for
mtime. -/
def aggEquations (n : Directory) : Prop :=
  n.info.file_count_tree
      = optAdd n.info.file_count_dir
          ((n.children.map (fun c => c.info.file_count_tree)).foldr optAdd none)
  ∧ n.info.allocated_size_tree
      = optAdd n.info.allocated_size_dir
          ((n.children.map (fun c => c.info.allocated_size_tree)).foldr optAdd none)
  ∧ n.info.apparent_size_tree
      = optAdd n.info.apparent_size_dir
          ((n.children.map (fun c => c.info.apparent_size_tree)).foldr optAdd none)
  ∧ n.info.mtime_tree
      = optMax n.info.mtime_dir
          ((n.children.map (fun c => c.info.mtime_tree)).foldr optMax none)

/-- A concrete directory record for witnesses: `i` its id, `par` its
parent id, `nm` its name, and the four per-directory aggregates. -/
def mkRec (i : Nat) (par : Option Nat) (nm : String)
    (fc al ap mt : Option Int) : DirPayload :=
  { id := i, parent_id := par, name := nm, mtime := 0,
    scan_status := ScanStatus.SUCCESSFUL,
    file_count_dir := fc, allocated_size_dir := al,
    apparent_size_dir := ap, mtime_dir := mt,
    file_count_tree := none, allocated_size_tree := none,
    apparent_size_tree := none, mtime_tree := none, path := [] }

/-- Witness input for C1: a root (id 1) with children ids 2 and 3,
one of which has no file data at all (all aggregates absent). -/
def aggWitnessRecs : List DirPayload :=
  [mkRec 1 none "root" (some 2) (some 100) (some 90) (some 5),
   mkRec 2 (some 1) "a" (some 3) (some 7) (some 6) (some 9),
   mkRec 3 (some 1) "b" none none none none]

/-- The tree `build_tree` produces on `aggWitnessRecs`. -/
def aggWitnessTree : Directory :=
  ((build_tree aggWitnessRecs).toOption).getD
    (.mk (mkRec 0 none "unused" none none none none) .nil)

/-- Witness input for C9: a root with one subdirectory. -/
def filterWitnessTree : Directory :=
  .mk (mkRec 1 none "root" (some 2) none none none)
    (.cons "a" (.mk (mkRec 2 (some 1) "a" none none none none) .nil) .nil)

/-- Counterexample input for C6: two records with a null parent. -/
def twoRootRecs : List DirPayload :=
  [mkRec 1 none "first" (some 1) none none none,
   mkRec 2 none "second" (some 5) none none none]

/-- Witness input for C6: no record has a null parent. -/
def noRootRecs : List DirPayload :=
  [mkRec 1 (some 1) "loop" none none none none]

/-- Witness input for C5: a two-level tree with paths attached. -/
def extractWitnessTree : Directory :=
  .mk { mkRec 1 none "root" none none none none with path := ["root"] }
    (.cons "a"
      (.mk { mkRec 2 (some 1) "a" none none none none with path := ["root", "a"] } .nil)
      .nil)

/-! ## `util.walk_tree` -/

/-- Traversal order parameter of `util.walk_tree`. -/
inductive WalkOrder where
  | pre
  | post
  | bfs
deriving Repr, DecidableEq

/-- The depth test `if maxdepth and depth >= maxdepth` of `walk_tree`:
because `0` is falsy in Python, a `maxdepth` of `0` disables the cutoff
entirely, and a negative cutoff is always reached. -/
def cutoffp (maxd : Option Int) (k : Nat) : Bool :=
  match maxd with
  | none => false
  | some m => m != 0 && decide (m ≤ (k : Int))

/-- Embedding of the `util.walk_tree` loop.  The state is the explicit
stack of (node, depth) pairs together with the value the `depth`
variable had in the previous iteration (`last_depth`); the returned
list holds the (node, depth) arguments of the `f(d, depth)` callback
invocations, in order.  `fuel` bounds the number of loop iterations
(`none` = ran out); the theorems below exhibit fuel that always
suffices, matching the terminating Python loop. -/
def walk_tree (order : WalkOrder) (maxd : Option Int) :
    Nat → List (Directory × Nat) → Nat → Option (List (Directory × Nat))
  | 0, _, _ => none
  | _ + 1, [], _ => some []
  | fuel + 1, (d, k) :: rest, lastDepth =>
    if cutoffp maxd k then walk_tree order maxd fuel rest k
    else
      match order with
      | .pre =>
        (walk_tree order maxd fuel (d.children.map (fun c => (c, k + 1)) ++ rest) k).map
          (fun v => (d, k) :: v)
      | .bfs =>
        (walk_tree order maxd fuel (rest ++ d.children.map (fun c => (c, k + 1))) k).map
          (fun v => (d, k) :: v)
      | .post =>
        if d.children ≠ [] ∧ lastDepth ≤ k then
          walk_tree order maxd fuel
            (d.children.map (fun c => (c, k + 1)) ++ (d, k) :: rest) k
        else
          (walk_tree order maxd fuel rest k).map (fun v => (d, k) :: v)

theorem sizeF_eq_sum : ∀ cs : Subdirs, (cs.toList.map (fun e => e.2.sizeT)).sum = cs.sizeF
  | .nil => rfl
  | .cons n c r => by
    simp only [Subdirs.toList, List.map_cons, List.sum_cons, Subdirs.sizeF,
      sizeF_eq_sum r]

theorem children_sizeT_sum (d : Directory) :
    (d.children.map Directory.sizeT).sum + 1 = d.sizeT := by
  cases d with
  | mk p cs =>
    have h1 : ((Directory.mk p cs).children.map Directory.sizeT).sum
        = ((sortByName cs.toList).map (fun e => e.2.sizeT)).sum := by
      simp only [Directory.children, Directory.subdirectories, List.map_map]
      rfl
    have h2 : ((sortByName cs.toList).map (fun e => e.2.sizeT)).sum
        = (cs.toList.map (fun e => e.2.sizeT)).sum :=
      List.Perm.sum_eq ((sortByName_perm cs.toList).map (fun e => e.2.sizeT))
    rw [h1, h2, sizeF_eq_sum]
    simp [Directory.sizeT]
    omega

/-- Total size of the trees on a stack (termination measure for the
breadth-first recursion). -/
def sumSize (q : List (Directory × Nat)) : Nat :=
  (q.map (fun e => e.1.sizeT)).sum

theorem sumSize_cons (d : Directory) (k : Nat) (rest : List (Directory × Nat)) :
    sumSize ((d, k) :: rest) = d.sizeT + sumSize rest := by
  simp [sumSize]

theorem sumSize_append (a b : List (Directory × Nat)) :
    sumSize (a ++ b) = sumSize a + sumSize b := by
  simp [sumSize]

theorem sumSize_children (d : Directory) (k : Nat) :
    sumSize (d.children.map (fun c => (c, k))) + 1 = d.sizeT := by
  rw [show sumSize (d.children.map (fun c => (c, k)))
      = (d.children.map Directory.sizeT).sum by
    simp only [sumSize, List.map_map]
    rfl]
  exact children_sizeT_sum d

/-- Iteration count of the `walk_tree` loop for `pre` and `bfs`
traversals starting at one node (each node popped once; a final
iteration pops the empty stack check). -/
def preCost (maxd : Option Int) (d : Directory) (k : Nat) : Nat :=
  if cutoffp maxd k then 1
  else 1 + (d.children.attach.map (fun c => preCost maxd c.1 (k + 1))).sum
termination_by d.sizeT
decreasing_by exact mem_children_sizeT d c.1 c.2

/-- Iteration count of the `walk_tree` loop for `post` traversal
starting at one node: an interior node is popped twice. -/
def postCost (maxd : Option Int) (d : Directory) (k : Nat) : Nat :=
  if cutoffp maxd k then 1
  else if d.children = [] then 1
  else 1 + (d.children.attach.map (fun c => postCost maxd c.1 (k + 1))).sum + 1
termination_by d.sizeT
decreasing_by exact mem_children_sizeT d c.1 c.2

/-- Iteration count of the `walk_tree` loop for `bfs` on a whole
queue. -/
def bfsCost (maxd : Option Int) : List (Directory × Nat) → Nat
  | [] => 1
  | (d, k) :: rest =>
    if cutoffp maxd k then 1 + bfsCost maxd rest
    else 1 + bfsCost maxd (rest ++ d.children.map (fun c => (c, k + 1)))
termination_by q => sumSize q
decreasing_by
  · rw [sumSize_cons]; have := d.sizeT_pos; omega
  · rw [sumSize_cons, sumSize_append]
    have := sumSize_children d (k + 1)
    omega

/-- The visit list of a pruned pre-order traversal. -/
def preVisits (maxd : Option Int) (d : Directory) (k : Nat) : List (Directory × Nat) :=
  if cutoffp maxd k then []
  else (d, k) :: (d.children.attach.map (fun c => preVisits maxd c.1 (k + 1))).flatten
termination_by d.sizeT
decreasing_by exact mem_children_sizeT d c.1 c.2

/-- The visit list of a pruned post-order traversal. -/
def postVisits (maxd : Option Int) (d : Directory) (k : Nat) : List (Directory × Nat) :=
  if cutoffp maxd k then []
  else (d.children.attach.map (fun c => postVisits maxd c.1 (k + 1))).flatten ++ [(d, k)]
termination_by d.sizeT
decreasing_by exact mem_children_sizeT d c.1 c.2

/-- The (node, depth) pairs of the whole subtree, children (in
`children` order) before the root: the post-order enumeration. -/
def postFull (d : Directory) (k : Nat) : List (Directory × Nat) :=
  (d.children.attach.map (fun c => postFull c.1 (k + 1))).flatten ++ [(d, k)]
termination_by d.sizeT
decreasing_by exact mem_children_sizeT d c.1 c.2

/-- The visit list of the pruned breadth-first traversal of a queue:
a first-in-first-out loop that appends the children of each visited
entry at the back and drops pruned entries without enqueuing their
children — exactly the `bfs` behaviour of the `walk_tree` loop. -/
def bfsVisits (maxd : Option Int) : List (Directory × Nat) → List (Directory × Nat)
  | [] => []
  | (d, k) :: rest =>
    if cutoffp maxd k then bfsVisits maxd rest
    else (d, k) :: bfsVisits maxd (rest ++ d.children.map (fun c => (c, k + 1)))
termination_by q => sumSize q
decreasing_by
  · rw [sumSize_cons]; have := d.sizeT_pos; omega
  · rw [sumSize_cons, sumSize_append]
    have := sumSize_children d (k + 1)
    omega

/-- Fuel sufficient for the `walk_tree` loop on `[(t, 0)]`. -/
def walkFuel (order : WalkOrder) (maxd : Option Int) (t : Directory) : Nat :=
  match order with
  | .pre => preCost maxd t 0 + 1
  | .post => postCost maxd t 0 + 1
  | .bfs => bfsCost maxd [(t, 0)]

/-! ## `util.formatsize` and `util.parsesize` -/

/-- The `_symbols` list of `util.py`. -/
def symbolsList : List String := ["B", "K", "M", "G", "T", "P"]

/-- The `_units_norm` dict: `u ↦ 1024 ** i` (integers). -/
def unitsNormVal (u : String) : Int :=
  if u = "B" then 1
  else if u = "K" then 1024
  else if u = "M" then 1048576
  else if u = "G" then 1073741824
  else if u = "T" then 1099511627776
  else if u = "P" then 1125899906842624
  else 1

/-- Membership in the `_units_norm` dict. -/
def isNormUnit (u : String) : Bool := symbolsList.contains u

/-- The `_units_quota` dict: `u ↦ 1024 * 1000 ** (i - 1)` — note the
`B` entry is the Python float `1024 / 1000`, modelled as the exact
rational. -/
def unitsQuotaVal (u : String) : Rat :=
  if u = "B" then (1024 : Rat) / 1000
  else if u = "K" then 1024
  else if u = "M" then 1024 * 1000
  else if u = "G" then 1024 * 1000000
  else if u = "T" then 1024 * 1000000000
  else if u = "P" then 1024 * 1000000000000
  else 1

/-- Python `str.upper` (ASCII is all that reaches it here). -/
def pyUpper (s : String) : String := String.mk (s.data.map Char.toUpper)

/-- The `H` branch of `formatsize`: the first unit (in dict order) for
which `size / factor < limit`, else `P` (the for-else). -/
def chooseUnitH (size : Rat) (units : String → Rat) (limit : Rat) : String :=
  (symbolsList.find? (fun u => decide (size / units u < limit))).getD "P"

/-- The unit `formatsize` settles on. -/
def chosenUnit (size : Int) (unitspec : String) (quota : Bool) : String :=
  let limit : Rat := if quota then 1000 else 1024
  let units : String → Rat := if quota then unitsQuotaVal else fun u => (unitsNormVal u : Rat)
  let uspec := pyUpper unitspec
  if uspec = "H" then chooseUnitH (size : Rat) units limit
  else if isNormUnit uspec then uspec else "B"

/-- Rounding of Python's fixed-point float formatting: round half to
even. -/
def roundHalfEven (q : Rat) : Int :=
  let f := q.floor
  let r := q - (f : Rat)
  if r < 1 / 2 then f
  else if 1 / 2 < r then f + 1
  else if f % 2 = 0 then f else f + 1

def digitChar (n : Nat) : Char := Char.ofNat (48 + n)

/-- Decimal digit characters of `n`, most significant first (`fuel`
structural recursion; `fuel = n + 1` always suffices). -/
def renderNatAux : Nat → Nat → List Char
  | 0, _ => []
  | fuel + 1, n =>
    if n < 10 then [digitChar n]
    else renderNatAux fuel (n / 10) ++ [digitChar (n % 10)]

def renderNat (n : Nat) : String := String.mk (renderNatAux (n + 1) n)

def renderInt (n : Int) : String :=
  if n < 0 then "-" ++ renderNat n.natAbs else renderNat n.toNat

/-- Python `f"{x:.{prec}f}"` for `prec ∈ {0, 1}`, on the exact rational
value: round half-even at the requested number of decimals and print
exactly that many decimals. -/
def renderFixed (q : Rat) (prec : Nat) : String :=
  if prec = 0 then renderInt (roundHalfEven q)
  else
    renderInt (roundHalfEven (q * 10) / 10) ++ "." ++
      renderInt (roundHalfEven (q * 10) % 10)

/-- Embedding of `util.formatsize`.  The float arithmetic of the
source is modelled on exact rationals; for the non-quota units (powers
of two) the division and the one-decimal rounding agree with the
double-precision computation for all sizes below 2^53. -/
def formatsize (size : Int) (unitspec : String) (quota : Bool) : String :=
  let units : String → Rat := if quota then unitsQuotaVal else fun u => (unitsNormVal u : Rat)
  let suffix := if quota then "q" else ""
  let unit := chosenUnit size unitspec quota
  let newsize : Rat := (size : Rat) / units unit
  let minprec : Nat := if newsize < 10 then 1 else 0
  renderFixed newsize minprec ++ unit ++ suffix

/-- Digit-folding core of Python `int`: fails at the first non-digit
character. -/
def parseDigitsAux (acc : Nat) : List Char → Option Nat
  | [] => some acc
  | c :: r => if c.isDigit then parseDigitsAux (acc * 10 + (c.toNat - 48)) r else none

/-- Embedding of Python `int(str)` on the strings reachable here: an
optional sign followed by decimal digits (whitespace and underscore
grouping, which Python also accepts, never occur in this code and are
not modelled).  `none` is the `ValueError`. -/
def pyInt (s : String) : Option Int :=
  match s.data with
  | [] => none
  | c :: r =>
    if c = '-' then
      match r with
      | [] => none
      | _ => (parseDigitsAux 0 r).map (fun n => -(n : Int))
    else if c = '+' then
      match r with
      | [] => none
      | _ => (parseDigitsAux 0 r).map (fun n => (n : Int))
    else (parseDigitsAux 0 (c :: r)).map (fun n => (n : Int))

/-- Embedding of `util.parsesize`.  The last character is inspected
(Python raises `IndexError` on an empty string, before the
`try/except ValueError`); an alphabetic final character that is a key
of `_units_norm` makes the prefix parse as an int scaled by the unit;
otherwise the whole string must parse as an int; `int` failures raise
the `ValueError` with the message of the source. -/
def parsesize (s : String) : Except String Int :=
  match s.data.getLast? with
  | none => .error "IndexError: string index out of range"
  | some c =>
    match (if c.isAlpha ∧ isNormUnit (String.mk [c]) then some (unitsNormVal (String.mk [c]))
      else none) with
    | some factor =>
      match pyInt (String.mk s.data.dropLast) with
      | some n => .ok (n * factor)
      | none => .error ("Could not parse \"" ++ s ++ "\" into a size in bytes.")
    | none =>
      match pyInt s with
      | some n => .ok n
      | none => .error ("Could not parse \"" ++ s ++ "\" into a size in bytes.")

/-! ## The parallel scanner: `fdu._process_dir`, `fdu.exclude_subdir`,
`fdu._dir_from_path` and the worker loop of `fdu.scan_path` -/

/-- The stat fields of a regular file captured by `_process_dir`. -/
structure FileStat where
  st_size : Int
  st_blocks : Int
  st_mtime : Int
  st_nlink : Int
  st_uid : Int
  st_gid : Int
deriving Repr, DecidableEq

/-- The filesystem being scanned.  A directory either denies access
(`path.stat()` or `os.scandir` raise `PermissionError`) or yields its
modification time, its regular-file entries and its named
subdirectories.  Entries that are neither regular files nor
directories are skipped by `_process_dir` and are not modelled. -/
inductive FsNode where
  | denied
  | ok (mtime : Int) (files : List (String × FileStat)) (subdirs : List (String × FsNode))

/-- First-match lookup in an association list (the dicts keyed on
names or paths built by the scanner have distinct keys, for which this
is exactly Python dict lookup). -/
def assocLookup {κ α : Type} [DecidableEq κ] : List (κ × α) → κ → Option α
  | [], _ => none
  | (k, v) :: r, s => if k = s then some v else assocLookup r s

/-- Resolve a relative path (the list of components below the scan
root) against the filesystem. -/
def fsResolve : FsNode → List String → Option FsNode
  | n, [] => some n
  | .denied, _ :: _ => none
  | .ok _ _ subs, c :: rest =>
    match assocLookup subs c with
    | some m => fsResolve m rest
    | none => none

/-- Embedding of `fdu._process_dir` at path `p`, given the node `nd`
that `p` resolves to: `(path, None)` on `PermissionError`, otherwise
the path together with the directory stat (its mtime), the file
entries and the full paths of the subdirectories. -/
def _process_dir (p : List String) (nd : FsNode) :
    List String × Option (Int × List (String × FileStat) × List (List String)) :=
  match nd with
  | .denied => (p, none)
  | .ok m fls subs => (p, some (m, fls, subs.map (fun e => p ++ [e.1])))

/-- Embedding of `fdu.exclude_subdir`: `any` of the patterns matches
the full path.  Each regular expression `pattern` is abstracted as the
Boolean predicate `fun p => re.fullmatch(pattern, str(p))` on the full
path. -/
def exclude_subdir (path : List String) (patterns : List (List String → Bool)) : Bool :=
  patterns.any (fun pat => pat path)

/-- Lookup of a directory record by full path.  `_dir_from_path`
memoizes on the path, so one scan creates at most one record per path;
only the `scan_status` column matters to the scanner claims and is the
only one tracked. -/
def dirLookup (db : List (List String × ScanStatus)) (p : List String) : Option ScanStatus :=
  assocLookup db p

/-- Store the status of a record: replace the first binding for the
path in place, or append a new record (`Directory.create`). -/
def dirUpsert (db : List (List String × ScanStatus)) (p : List String) (st : ScanStatus) :
    List (List String × ScanStatus) :=
  match db with
  | [] => [(p, st)]
  | (k, v) :: r => if k = p then (k, st) :: r else (k, v) :: dirUpsert r p st

/-- Embedding of `fdu._dir_from_path`, restricted to its effect on the
record set: if `path` has a record (a `_dir_cache` hit) nothing
happens; otherwise records for its missing ancestors down to `base`
and then for `path` itself are created with the default status
`NOT_SCANNED`, and a path that is not a descendant of `base` raises
`ValueError` (`none`).  The parent recursion is run on explicit fuel;
`fuel = path.length + 1` always suffices. -/
def dirFromPathDb : Nat → List (List String × ScanStatus) → List String → List String →
    Option (List (List String × ScanStatus))
  | 0, _, _, _ => none
  | fuel + 1, db, path, base =>
    if (dirLookup db path).isSome then some db
    else if path = base then some (dirUpsert db path .NOT_SCANNED)
    else if isUnderPath base path then
      (dirFromPathDb fuel db path.dropLast base).map
        (fun db2 => dirUpsert db2 path .NOT_SCANNED)
    else none

/-- The `for sd in subdirs` loop of one successful drain of
`scan_path`: an excluded subdirectory gets a record set to
`SKIPPED_EXCLUDE` (created by `_dir_from_path(sd, path)` with the
*parent* as base — which cannot raise, as every `sd` is directly under
the parent, so the `.getD db` fallback for the `ValueError` case is
unreachable); every other subdirectory is submitted, in order, as a
new task.  Returns the updated records and the new tasks. -/
def processSubdirs (patterns : List (List String → Bool)) (parent : List String) :
    List (List String × ScanStatus) → List (List String) →
      List (List String × ScanStatus) × List (List String)
  | db, [] => (db, [])
  | db, sd :: rest =>
    if exclude_subdir sd patterns then
      processSubdirs patterns parent
        (dirUpsert ((dirFromPathDb (sd.length + 1) db sd parent).getD db) sd
          .SKIPPED_EXCLUDE) rest
    else
      match processSubdirs patterns parent db rest with
      | (db2, ts) => (db2, sd :: ts)

/-- A state of the `scan_path` worker loop: the paths with an
outstanding `_process_dir` task (the `waiting` futures), the directory
records, and the file rows inserted so far (as path, name, stat; the
size/mtime/owner columns are all functions of the stat). -/
structure ScanState where
  waiting : List (List String)
  dirs : List (List String × ScanStatus)
  files : List (List String × String × FileStat)

/-- The body of the drain loop of `scan_path` for one completed task
`(p, nd)`, after `_dir_from_path(p, root)` produced the records `dbc`:
on `PermissionError` the record is saved as `SKIPPED_PERMISSION`; on
success it is saved as `SUCCESSFUL` (the mtime update is not tracked),
the file rows are inserted, and the subdirectory loop records excluded
children and submits the rest.  `rest` is the remaining waiting set. -/
def drainOne (patterns : List (List String → Bool)) (p : List String) (nd : FsNode)
    (dbc : List (List String × ScanStatus)) (rest : List (List String))
    (files : List (List String × String × FileStat)) : ScanState :=
  match (_process_dir p nd).2 with
  | none => ⟨rest, dirUpsert dbc p .SKIPPED_PERMISSION, files⟩
  | some (_, fls, sdPaths) =>
    ⟨rest ++ (processSubdirs patterns p (dirUpsert dbc p .SUCCESSFUL) sdPaths).2,
      (processSubdirs patterns p (dirUpsert dbc p .SUCCESSFUL) sdPaths).1,
      files ++ fls.map (fun f => (p, f))⟩

/-- One step of the `scan_path` worker loop over filesystem `fs`
rooted at the path `root`: some waiting task `p` — any of them, so
every completion order of the process pool is covered — completes
with the result `_process_dir` computed from the node `p` resolves to,
and the result is drained. -/
inductive ScanStep (fs : FsNode) (root : List String)
    (patterns : List (List String → Bool)) : ScanState → ScanState → Prop
  | drain (l1 l2 : List (List String)) (p : List String) (nd : FsNode)
      (dbc : List (List String × ScanStatus)) (s : ScanState) :
      s.waiting = l1 ++ p :: l2 →
      fsResolve fs (p.drop root.length) = some nd →
      dirFromPathDb (p.length + 1) s.dirs p root = some dbc →
      ScanStep fs root patterns s (drainOne patterns p nd dbc (l1 ++ l2) s.files)

/-- The initial state of `scan_path`: the root task submitted, nothing
recorded. -/
def scanInit (root : List String) : ScanState := ⟨[root], [], []⟩

/-- The states the worker loop of `scan_path` can reach, over every
completion order of the worker pool. -/
def ScanReach (fs : FsNode) (root : List String)
    (patterns : List (List String → Bool)) (s : ScanState) : Prop :=
  Relation.ReflTransGen (ScanStep fs root patterns) (scanInit root) s

/-- The inductive invariant of the worker loop, from which the scanner
claims follow.  `waiting` paths sit under the root, resolve against
the filesystem, and (except for the root) are non-excluded children of
successfully scanned directories with every proper ancestor scanned
successfully; records only ever carry the root prefix and a
non-default status consistent with the filesystem; an excluded record
matches a pattern, is not the root, and hangs off a successful parent;
a successful directory has all its children accounted for; file rows
belong to successfully scanned directories; and the root is always
live (still waiting, or terminally recorded). -/
structure ScanInv (fs : FsNode) (root : List String)
    (patterns : List (List String → Bool)) (s : ScanState) : Prop where
  wait_root : ∀ p ∈ s.waiting, root <+: p
  wait_resolve : ∀ p ∈ s.waiting, (fsResolve fs (p.drop root.length)).isSome
  wait_origin : ∀ p ∈ s.waiting, p = root ∨
    (exclude_subdir p patterns = false ∧ dirLookup s.dirs p.dropLast = some .SUCCESSFUL)
  wait_anc : ∀ p ∈ s.waiting, ∀ q, root <+: q → q <+: p → q ≠ p →
    dirLookup s.dirs q = some .SUCCESSFUL
  db_root : ∀ q st, dirLookup s.dirs q = some st → root <+: q
  db_scanned : ∀ q st, dirLookup s.dirs q = some st → st ≠ .NOT_SCANNED
  db_perm : ∀ q, dirLookup s.dirs q = some .SKIPPED_PERMISSION →
    fsResolve fs (q.drop root.length) = some .denied
  db_succ : ∀ q, dirLookup s.dirs q = some .SUCCESSFUL →
    ∃ m fls subs, fsResolve fs (q.drop root.length) = some (.ok m fls subs)
  db_excl : ∀ q, dirLookup s.dirs q = some .SKIPPED_EXCLUDE →
    exclude_subdir q patterns = true ∧ q ≠ root ∧
      dirLookup s.dirs q.dropLast = some .SUCCESSFUL
  db_parent : ∀ q st, dirLookup s.dirs q = some st →
    st = .SUCCESSFUL ∨ st = .SKIPPED_PERMISSION →
    q = root ∨ (exclude_subdir q patterns = false ∧
      dirLookup s.dirs q.dropLast = some .SUCCESSFUL)
  db_children : ∀ q m fls subs, dirLookup s.dirs q = some .SUCCESSFUL →
    fsResolve fs (q.drop root.length) = some (.ok m fls subs) →
    ∀ e ∈ subs,
      (exclude_subdir (q ++ [e.1]) patterns = true →
        dirLookup s.dirs (q ++ [e.1]) = some .SKIPPED_EXCLUDE) ∧
      (exclude_subdir (q ++ [e.1]) patterns = false →
        (q ++ [e.1]) ∈ s.waiting ∨
          dirLookup s.dirs (q ++ [e.1]) = some .SUCCESSFUL ∨
          dirLookup s.dirs (q ++ [e.1]) = some .SKIPPED_PERMISSION)
  files_succ : ∀ e ∈ s.files, dirLookup s.dirs e.1 = some .SUCCESSFUL
  root_live : root ∈ s.waiting ∨ dirLookup s.dirs root = some .SUCCESSFUL ∨
    dirLookup s.dirs root = some .SKIPPED_PERMISSION

/-- Concrete scan for the C3 witness: `/r` holds one subdirectory
`/r/a`, and the single pattern matches exactly `/r/a`. -/
def scanFs1 : FsNode := .ok 0 [] [("a", .ok 1 [] [])]

def scanPats1 : List (List String → Bool) := [fun p => decide (p = ["r", "a"])]

/-- The state after draining the root task of the C3 witness scan. -/
def scanState1 : ScanState :=
  ⟨[], [(["r"], .SUCCESSFUL), (["r", "a"], .SKIPPED_EXCLUDE)], []⟩

/-- Concrete scan for the C4 witness: `/r` holds one file, a
permission-denied subdirectory `/r/a` and a readable sibling `/r/b`;
no exclusion patterns. -/
def scanFs2 : FsNode :=
  .ok 0 [("f.txt", ⟨7, 1, 5, 1, 0, 0⟩)] [("a", .denied), ("b", .ok 2 [] [])]

def scanPats2 : List (List String → Bool) := []

/-- The C4 witness scan after draining the root task: both
subdirectories are waiting. -/
def scanState2m : ScanState :=
  ⟨[["r", "a"], ["r", "b"]], [(["r"], .SUCCESSFUL)], [(["r"], "f.txt", ⟨7, 1, 5, 1, 0, 0⟩)]⟩

/-- The C4 witness scan after draining the root task and then the
denied `/r/a` task. -/
def scanState2b : ScanState :=
  ⟨[["r", "b"]], [(["r"], .SUCCESSFUL), (["r", "a"], .SKIPPED_PERMISSION)],
    [(["r"], "f.txt", ⟨7, 1, 5, 1, 0, 0⟩)]⟩

/-- The C4 witness scan after draining all three tasks (root, then
`/r/a`, then `/r/b`). -/
def scanState2 : ScanState :=
  ⟨[], [(["r"], .SUCCESSFUL), (["r", "a"], .SKIPPED_PERMISSION), (["r", "b"], .SUCCESSFUL)],
    [(["r"], "f.txt", ⟨7, 1, 5, 1, 0, 0⟩)]⟩

/-- Concrete scan for the C10 witness: an empty directory `/r`, and a
pattern that matches *every* path — including the root itself. -/
def scanFs3 : FsNode := .ok 0 [] []

def scanPats3 : List (List String → Bool) := [fun _ => true]

/-- The C10 witness scan after draining the root task: the root was
scanned successfully even though it matches the exclusion pattern. -/
def scanState3 : ScanState := ⟨[], [(["r"], .SUCCESSFUL)], []⟩

/-! ## THEOREMS -/

theorem _skip_cons_none {T : Type} (xl : List (Option T)) :
    _skip (none :: xl) = _skip xl := rfl

theorem _skip_cons_some {T : Type} (a : T) (xl : List (Option T)) :
    _skip (some a :: xl) = a :: _skip xl := rfl

theorem _skip_eq_nil_iff {T : Type} (xl : List (Option T)) :
    _skip xl = [] ↔ ∀ x ∈ xl, x = none := by
  induction xl with
  | nil => simp [_skip]
  | cons x xs ih =>
    cases x with
    | none => simpa [_skip_cons_none] using ih
    | some a => simp [_skip_cons_some]

theorem agg_none_eq_none_iff {T : Type} (xl : List (Option T)) (f : List T → T) :
    agg_none xl f = none ↔ ∀ x ∈ xl, x = none := by
  rw [← _skip_eq_nil_iff]
  unfold agg_none
  rcases h : _skip xl with _ | ⟨a, l⟩ <;> simp [h]

theorem agg_none_of_skip_ne_nil {T : Type} (xl : List (Option T)) (f : List T → T)
    (h : _skip xl ≠ []) : agg_none xl f = some (f (_skip xl)) := by
  unfold agg_none
  rcases hs : _skip xl with _ | ⟨a, l⟩
  · exact absurd hs h
  · simp

theorem pySum_eq_sum (l : List Int) : pySum l = l.sum := by
  have key : ∀ (l : List Int) (c : Int), l.foldl (· + ·) c = c + l.sum := by
    intro l
    induction l with
    | nil => simp
    | cons x xs ih => intro c; simp [List.foldl_cons, ih, List.sum_cons]; ring
  simpa using key l 0

theorem foldl_max_max (s : List Int) (y x : Int) :
    max y (s.foldl max x) = s.foldl max (max y x) := by
  induction s generalizing x with
  | nil => simp
  | cons b s ih =>
    simp only [List.foldl_cons]
    rw [ih, max_assoc]

/-- The code's sum-aggregation (`agg_none` with Python `sum`) agrees with
the specification-side fold of the `none`-identity addition. -/
theorem agg_none_sum_eq_foldr_optAdd (xl : List (Option Int)) :
    agg_none xl pySum = List.foldr optAdd none xl := by
  induction xl with
  | nil => rfl
  | cons x xs ih =>
    cases x with
    | none =>
      rw [List.foldr_cons, ← ih]
      show agg_none (none :: xs) pySum = optAdd none (agg_none xs pySum)
      unfold agg_none
      rw [_skip_cons_none]
      rcases hs : _skip xs with _ | ⟨a, l⟩ <;> simp [hs, optAdd]
    | some a =>
      rw [List.foldr_cons, ← ih]
      show agg_none (some a :: xs) pySum = optAdd (some a) (agg_none xs pySum)
      unfold agg_none
      rw [_skip_cons_some]
      rcases hs : _skip xs with _ | ⟨b, l⟩
      · simp [hs, optAdd, pySum]
      · simp [hs, optAdd, pySum_eq_sum]

/-- The code's max-aggregation (`agg_none` with Python `max`) agrees with
the specification-side fold of the `none`-identity maximum. -/
theorem agg_none_max_eq_foldr_optMax (xl : List (Option Int)) :
    agg_none xl pyMax = List.foldr optMax none xl := by
  induction xl with
  | nil => rfl
  | cons x xs ih =>
    cases x with
    | none =>
      rw [List.foldr_cons, ← ih]
      show agg_none (none :: xs) pyMax = optMax none (agg_none xs pyMax)
      unfold agg_none
      rw [_skip_cons_none]
      rcases hs : _skip xs with _ | ⟨a, l⟩ <;> simp [hs, optMax]
    | some a =>
      rw [List.foldr_cons, ← ih]
      show agg_none (some a :: xs) pyMax = optMax (some a) (agg_none xs pyMax)
      unfold agg_none
      rw [_skip_cons_some]
      rcases hs : _skip xs with _ | ⟨b, l⟩
      · simp [hs, optMax, pyMax]
      · simp only [hs, List.length_cons]
        simp only [Nat.succ_ne_zero, if_neg, optMax, pyMax]
        rw [if_neg (by simp), if_neg (by simp)]
        simp [pyMax, foldl_max_max]

theorem Subdirs.toList_ofList (l : List (String × Directory)) :
    (Subdirs.ofList l).toList = l := by
  induction l with
  | nil => rfl
  | cons x r ih => cases x; simp [Subdirs.ofList, Subdirs.toList, ih]

/-- Induction over a tree through the child list: to prove `P`
everywhere it suffices to prove it at each node assuming it for every
entry of the child map. -/
theorem Directory.inductionOn (P : Directory → Prop)
    (h : ∀ i s, (∀ e ∈ Subdirs.toList s, P e.2) → P (.mk i s)) :
    ∀ t, P t := by
  intro t
  refine @Directory.rec P (fun s => ∀ e ∈ s.toList, P e.2) ?_ ?_ ?_ t
  · intro i s hs; exact h i s hs
  · intro e he; simp [Subdirs.toList] at he
  · intro n c r hc hr e he
    simp only [Subdirs.toList, List.mem_cons] at he
    rcases he with he | he
    · subst he; exact hc
    · exact hr e he

/-! ### Aggregation correctness (C1) -/

theorem toList_aggF : ∀ cs : Subdirs,
    cs.aggF.toList = cs.toList.map (fun e => (e.1, e.2.aggTree))
  | .nil => rfl
  | .cons n c r => by
    simp [Subdirs.aggF, Subdirs.toList, toList_aggF r]

theorem insertByName_map_val (g : Directory → Directory) (e : String × Directory) :
    ∀ l : List (String × Directory),
      insertByName (e.1, g e.2) (l.map (fun x => (x.1, g x.2)))
        = (insertByName e l).map (fun x => (x.1, g x.2))
  | [] => rfl
  | x :: r => by
    by_cases h : e.1 ≤ x.1
    · simp [insertByName, h]
    · simp [insertByName, h, insertByName_map_val g e r]

theorem sortByName_map_val (g : Directory → Directory) :
    ∀ l : List (String × Directory),
      sortByName (l.map (fun x => (x.1, g x.2)))
        = (sortByName l).map (fun x => (x.1, g x.2))
  | [] => rfl
  | x :: r => by
    simp only [List.map_cons, sortByName, sortByName_map_val g r]
    exact insertByName_map_val g x (sortByName r)

theorem children_aggTree (d : Directory) :
    d.aggTree.children = d.children.map Directory.aggTree := by
  cases d with
  | mk p cs =>
    show Directory.children (.mk _ cs.aggF) = _
    simp only [Directory.children, Directory.subdirectories, toList_aggF]
    rw [sortByName_map_val Directory.aggTree]
    simp

theorem map_fst_preFull (d : Directory) (k : Nat) :
    (preFull d k).map Prod.fst
      = d :: (d.children.attach.map (fun c => (preFull c.1 (k + 1)).map Prod.fst)).flatten := by
  rw [preFull]
  simp only [List.map_cons, List.map_flatten, List.map_map]
  rfl

theorem preFull_fst_depth (d : Directory) (k k2 : Nat) :
    (preFull d k).map Prod.fst = (preFull d k2).map Prod.fst := by
  have main : ∀ (s : Nat) (d : Directory), d.sizeT = s → ∀ k k2 : Nat,
      (preFull d k).map Prod.fst = (preFull d k2).map Prod.fst := by
    intro s
    induction s using Nat.strong_induction_on with
    | _ s ih =>
      intro d hs k k2
      rw [map_fst_preFull, map_fst_preFull]
      congr 1
      congr 1
      apply List.map_congr_left
      intro c _
      exact ih c.1.sizeT (hs ▸ mem_children_sizeT d c.1 c.2) c.1 rfl (k + 1) (k2 + 1)
  exact main d.sizeT d rfl k k2

theorem mem_nodesF (n : Directory) :
    ∀ cs : Subdirs, n ∈ cs.nodesF ↔ ∃ e ∈ cs.toList, n ∈ e.2.nodesT
  | .nil => by simp [Subdirs.nodesF, Subdirs.toList]
  | .cons nm c r => by
    simp only [Subdirs.nodesF, Subdirs.toList, List.mem_append, List.mem_cons,
      mem_nodesF n r]
    constructor
    · rintro (h | ⟨e, he, hn⟩)
      · exact ⟨(nm, c), Or.inl rfl, h⟩
      · exact ⟨e, Or.inr he, hn⟩
    · rintro ⟨e, (he | he), hn⟩
      · subst he; exact Or.inl hn
      · exact Or.inr ⟨e, he, hn⟩

theorem mem_children_iff (c d : Directory) :
    c ∈ d.children ↔ ∃ e ∈ d.subdirectories.toList, c = e.2 := by
  unfold Directory.children
  constructor
  · intro h
    rcases List.mem_map.mp h with ⟨e, he, hec⟩
    exact ⟨e, (sortByName_perm _).mem_iff.mp he, hec.symm⟩
  · rintro ⟨e, he, hec⟩
    exact List.mem_map.mpr ⟨e, (sortByName_perm _).mem_iff.mpr he, hec.symm⟩

theorem mem_allNodes (n d : Directory) :
    n ∈ allNodes d ↔ n = d ∨ ∃ c ∈ d.children, n ∈ allNodes c := by
  cases d with
  | mk p cs =>
    show n ∈ Directory.nodesT (.mk p cs) ↔ _
    simp only [Directory.nodesT, List.mem_cons, mem_nodesF]
    constructor
    · rintro (h | ⟨e, he, hn⟩)
      · exact Or.inl h
      · refine Or.inr ⟨e.2, ?_, hn⟩
        exact (mem_children_iff e.2 (.mk p cs)).mpr ⟨e, he, rfl⟩
    · rintro (h | ⟨c, hc, hn⟩)
      · exact Or.inl h
      · rcases (mem_children_iff c (.mk p cs)).mp hc with ⟨e, he, hec⟩
        subst hec
        exact Or.inr ⟨e, he, hn⟩

theorem aggEquations_root (p : DirPayload) (cs2 : Subdirs) :
    aggEquations (.mk (_sum_subdirs p (Directory.children (.mk p cs2))) cs2) := by
  refine ⟨?_, ?_, ?_, ?_⟩ <;>
    simp only [aggEquations, Directory.info, Directory.children, Directory.subdirectories,
      _sum_subdirs, agg_none_sum_eq_foldr_optAdd, agg_none_max_eq_foldr_optMax,
      List.foldr_cons]

theorem aggTree_nodes (t n : Directory) (hmem : n ∈ allNodes t.aggTree) : aggEquations n := by
  have main : ∀ (s : Nat) (t : Directory), t.sizeT = s →
      ∀ n, n ∈ allNodes t.aggTree → aggEquations n := by
    intro s
    induction s using Nat.strong_induction_on with
    | _ s ih =>
      intro t hs n hn
      cases t with
      | mk p cs =>
        have hagg : (Directory.mk p cs).aggTree
            = .mk (_sum_subdirs p (Directory.children (.mk p cs.aggF))) cs.aggF := rfl
        rw [hagg, mem_allNodes] at hn
        rcases hn with hn | ⟨c2, hc2, hn⟩
        · subst hn
          exact aggEquations_root p cs.aggF
        · rw [← hagg, children_aggTree] at hc2
          rcases List.mem_map.mp hc2 with ⟨c, hc, hcc⟩
          subst hcc
          exact ih c.sizeT (hs ▸ mem_children_sizeT _ c hc) c rfl n hn
  exact main t.sizeT t rfl n hmem

/-- C1. After `build_tree` links a complete set of directory records
and runs the post-order aggregation pass, every node of the resulting
tree satisfies: its subtree aggregate for file count, allocated size
and apparent size equals its own per-directory aggregate plus the sum
of its direct children's subtree aggregates, and its subtree mtime is
the maximum of its own per-directory mtime and its children's subtree
mtimes, `none` (absent) being the identity of each reduction. -/
theorem build_tree_aggregates (recs : List DirPayload) (t : Directory)
    (h : build_tree recs = .ok t) : ∀ n ∈ allNodes t, aggEquations n := by
  unfold build_tree at h
  split at h
  · exact absurd h (by simp)
  · split at h
    · exact absurd h (by simp)
    · split at h
      · exact absurd h (by simp)
      · simp only [Except.ok.injEq] at h
        subst h
        exact fun n hn => aggTree_nodes _ n hn

/-- Witness for C1 at the concrete record set `aggWitnessRecs`: the
aggregation equations hold at the root of the resulting tree. -/
theorem build_tree_aggregates_witness : aggEquations aggWitnessTree :=
  build_tree_aggregates aggWitnessRecs aggWitnessTree (by rfl) aggWitnessTree
    ((mem_allNodes aggWitnessTree aggWitnessTree).mpr (Or.inl rfl))

/-! ### C2: `agg_none` -/

/-- C2. For every list of optional values and every reduction function,
`agg_none` returns `none` exactly when the list is empty or every
element is `none`; otherwise it returns the reduction applied to
exactly the non-absent elements (so absent values are never coerced to
zero, and a present zero is never turned into absent). -/
theorem agg_none_spec {T : Type} (f : List T → T) (xl : List (Option T)) :
    (agg_none xl f = none ↔ (xl = [] ∨ ∀ x ∈ xl, x = none))
    ∧ (_skip xl ≠ [] → agg_none xl f = some (f (_skip xl))) := by
  constructor
  · rw [agg_none_eq_none_iff]
    constructor
    · exact fun h => Or.inr h
    · rintro (h | h)
      · subst h; simp
      · exact h
  · exact agg_none_of_skip_ne_nil xl f

/-- Witness for C2: a list with one absent entry, the sum of the
present entries (including a present zero) is returned. -/
theorem agg_none_spec_witness :
    agg_none [none, some (3 : Int), some 0] pySum = some 3 := by
  rw [(agg_none_spec pySum [none, some (3 : Int), some 0]).2 (by decide)]
  decide

/-! ### C9: `filter_tree` -/

theorem filter_tree_info (f : Directory → Bool) (t : Directory) :
    (filter_tree f t).info = t.info := by
  cases t; rfl

theorem filter_tree_subdirectories (f : Directory → Bool) (p : DirPayload) (cs : Subdirs) :
    (filter_tree f (.mk p cs)).subdirectories = filterF f cs := rfl

theorem filterF_names_sublist (f : Directory → Bool) :
    ∀ cs : Subdirs, List.Sublist ((filterF f cs).toList.map Prod.fst) (cs.toList.map Prod.fst)
  | .nil => by simp [filterF]
  | .cons n c r => by
    show List.Sublist
      ((if f (filter_tree f c) then Subdirs.cons n (filter_tree f c) (filterF f r)
        else filterF f r).toList.map Prod.fst) ((Subdirs.cons n c r).toList.map Prod.fst)
    by_cases h : f (filter_tree f c)
    · rw [if_pos h]
      simp only [Subdirs.toList, List.map_cons]
      exact List.Sublist.cons₂ n (filterF_names_sublist f r)
    · rw [if_neg h]
      simp only [Subdirs.toList, List.map_cons]
      exact List.Sublist.cons n (filterF_names_sublist f r)

theorem mem_filterF (f : Directory → Bool) :
    ∀ (cs : Subdirs) (e2 : String × Directory), e2 ∈ (filterF f cs).toList →
      ∃ e ∈ cs.toList, e2.1 = e.1 ∧ e2.2 = filter_tree f e.2
  | .nil, e2, h => by simp [filterF, Subdirs.toList] at h
  | .cons n c r, e2, h => by
    rw [show filterF f (.cons n c r)
        = if f (filter_tree f c) then Subdirs.cons n (filter_tree f c) (filterF f r)
          else filterF f r from rfl] at h
    by_cases hf : f (filter_tree f c)
    · rw [if_pos hf] at h
      simp only [Subdirs.toList, List.mem_cons] at h
      rcases h with h | h
      · exact ⟨(n, c), by simp [Subdirs.toList], by rw [h], by rw [h]⟩
      · rcases mem_filterF f r e2 h with ⟨e, he, h1, h2⟩
        exact ⟨e, by simp [Subdirs.toList, he], h1, h2⟩
    · rw [if_neg hf] at h
      rcases mem_filterF f r e2 h with ⟨e, he, h1, h2⟩
      exact ⟨e, by simp [Subdirs.toList, he], h1, h2⟩

theorem mem_children_filter (f : Directory → Bool) (t : Directory) (c2 : Directory)
    (h : c2 ∈ (filter_tree f t).children) : ∃ c ∈ t.children, c2 = filter_tree f c := by
  rcases (mem_children_iff _ _).mp h with ⟨e2, he2, hc⟩
  cases t with
  | mk p cs =>
    rw [filter_tree_subdirectories] at he2
    rcases mem_filterF f cs e2 he2 with ⟨e, he, _, h2⟩
    exact ⟨e.2, (mem_children_iff _ _).mpr ⟨e, he, rfl⟩, by rw [hc, h2]⟩

/-- C9. `filter_tree` never removes the root node (its fields are kept
even when the predicate rejects it), and every retained node is one of
the original nodes with all fields other than its `subdirectories` map
unchanged, its child-name list being a sublist (entries only removed,
never added or reordered) of the original node's child names. -/
theorem filter_tree_frame (f : Directory → Bool) (t : Directory) :
    (filter_tree f t).info = t.info
    ∧ ∀ n ∈ allNodes (filter_tree f t), ∃ m ∈ allNodes t,
        n.info = m.info
        ∧ List.Sublist (n.subdirectories.toList.map Prod.fst)
            (m.subdirectories.toList.map Prod.fst) := by
  refine ⟨filter_tree_info f t, ?_⟩
  have main : ∀ (s : Nat) (t : Directory), t.sizeT = s →
      ∀ n ∈ allNodes (filter_tree f t), ∃ m ∈ allNodes t,
        n.info = m.info
        ∧ List.Sublist (n.subdirectories.toList.map Prod.fst)
            (m.subdirectories.toList.map Prod.fst) := by
    intro s
    induction s using Nat.strong_induction_on with
    | _ s ih =>
      intro t hs n hn
      rw [mem_allNodes] at hn
      rcases hn with hn | ⟨c2, hc2, hn⟩
      · subst hn
        refine ⟨t, (mem_allNodes t t).mpr (Or.inl rfl), filter_tree_info f t, ?_⟩
        cases t with
        | mk p cs =>
          rw [filter_tree_subdirectories]
          exact filterF_names_sublist f cs
      · rcases mem_children_filter f t c2 hc2 with ⟨c, hc, hcc⟩
        subst hcc
        rcases ih c.sizeT (hs ▸ mem_children_sizeT t c hc) c rfl n hn with ⟨m, hm, h1, h2⟩
        exact ⟨m, (mem_allNodes m t).mpr (Or.inr ⟨c, hc, hm⟩), h1, h2⟩
  exact main t.sizeT t rfl

/-- Witness for C9: a predicate rejecting everything still keeps the
root, with its fields unchanged. -/
theorem filter_tree_frame_witness :
    (filter_tree (fun _ => false) filterWitnessTree).info = filterWitnessTree.info
    ∧ ∃ m ∈ allNodes filterWitnessTree,
        (filter_tree (fun _ => false) filterWitnessTree).info = m.info
        ∧ List.Sublist
            ((filter_tree (fun _ => false) filterWitnessTree).subdirectories.toList.map Prod.fst)
            (m.subdirectories.toList.map Prod.fst) := by
  refine ⟨(filter_tree_frame (fun _ => false) filterWitnessTree).1, ?_⟩
  exact (filter_tree_frame (fun _ => false) filterWitnessTree).2
    (filter_tree (fun _ => false) filterWitnessTree)
    ((mem_allNodes _ _).mpr (Or.inl rfl))

/-! ### C5: `extract_subtree` -/

theorem isUnderPath_refl : ∀ p : List String, isUnderPath p p = true
  | [] => rfl
  | b :: bs => by simp [isUnderPath, isUnderPath_refl bs]

theorem joinPath_cons_ne_nil (x : String) (l : List String) (h : l ≠ []) :
    joinPath (x :: l) = x ++ "/" ++ joinPath l := by
  cases l with
  | nil => exact absurd rfl h
  | cons y r => rfl

theorem joinPath_contains (c : String) :
    ∀ (pre rest : List String), ∃ s1 s2, joinPath (pre ++ c :: rest) = s1 ++ c ++ s2
  | [], rest => by
    cases rest with
    | nil => exact ⟨"", "", by simp [joinPath]⟩
    | cons y r =>
      refine ⟨"", "/" ++ joinPath (y :: r), ?_⟩
      rw [List.nil_append, joinPath_cons_ne_nil c (y :: r) (by simp)]
      simp [String.append_assoc]
  | x :: pre, rest => by
    rcases joinPath_contains c pre rest with ⟨s1, s2, hs⟩
    refine ⟨x ++ "/" ++ s1, s2, ?_⟩
    rw [List.cons_append, joinPath_cons_ne_nil x (pre ++ c :: rest) (by simp), hs]
    simp [String.append_assoc]

theorem extractGo_missing (rootPath rel : List String) (c : String) (rest : List String) :
    ∀ (pre : List String) (d n : Directory), walkTo d pre = some n →
      n.subdirectories.lookup c = none →
      extractGo rootPath rel d (pre ++ c :: rest)
        = .error ("Requested path " ++ joinPath rel ++ " not found within tree anchored at "
            ++ joinPath rootPath ++ ".")
  | [], d, n, hw, hm => by
    simp only [walkTo, Option.some.injEq] at hw
    subst hw
    show extractGo rootPath rel d (c :: rest) = _
    rw [show extractGo rootPath rel d (c :: rest)
        = (match d.subdirectories.lookup c with
          | some child => extractGo rootPath rel child rest
          | none => .error ("Requested path " ++ joinPath rel
              ++ " not found within tree anchored at " ++ joinPath rootPath ++ ".")) from rfl]
    rw [hm]
  | q :: pre, d, n, hw, hm => by
    rw [show walkTo d (q :: pre)
        = (match d.subdirectories.lookup q with
          | some child => walkTo child pre
          | none => none) from rfl] at hw
    rcases hq : d.subdirectories.lookup q with _ | child
    · rw [hq] at hw; exact absurd hw (by simp)
    · rw [hq] at hw
      show extractGo rootPath rel d (q :: (pre ++ c :: rest)) = _
      rw [show extractGo rootPath rel d (q :: (pre ++ c :: rest))
          = (match d.subdirectories.lookup q with
            | some child => extractGo rootPath rel child (pre ++ c :: rest)
            | none => .error ("Requested path " ++ joinPath rel
                ++ " not found within tree anchored at " ++ joinPath rootPath ++ ".")) from rfl]
      rw [hq]
      exact extractGo_missing rootPath rel c rest pre child n hw hm

/-- C5. Extracting the subtree at the root's own path returns the root
unchanged; and whenever the descent reaches a node whose child map has
no entry for the next component, extraction fails with the not-found
error, whose message names the missing component (the message spells
out the requested relative path, which contains that component). -/
theorem extract_subtree_spec (root : Directory) :
    extract_subtree root root.info.path = .ok root
    ∧ ∀ (path pre rest : List String) (c : String) (n : Directory),
        root.info.path <+: path →
        path.drop root.info.path.length = pre ++ c :: rest →
        walkTo root pre = some n →
        n.subdirectories.lookup c = none →
        ∃ msg, extract_subtree root path = .error msg ∧ ∃ s1 s2, msg = s1 ++ c ++ s2 := by
  constructor
  · unfold extract_subtree
    rw [if_pos (isUnderPath_refl root.info.path), List.drop_length]
    rfl
  · intro path pre rest c n hpre hsplit hwalk hmiss
    refine ⟨"Requested path " ++ joinPath (path.drop root.info.path.length)
      ++ " not found within tree anchored at " ++ joinPath root.info.path ++ ".", ?_, ?_⟩
    · unfold extract_subtree
      rw [if_pos (by
        rcases hpre with ⟨suf, hsuf⟩
        subst hsuf
        have : isUnderPath root.info.path (root.info.path ++ suf) = true := by
          clear hsplit
          induction root.info.path with
          | nil => rfl
          | cons b bs ih => simp [isUnderPath, ih]
        exact this)]
      rw [hsplit]
      exact extractGo_missing root.info.path (pre ++ c :: rest) c rest pre root n hwalk hmiss
    · rw [hsplit]
      rcases joinPath_contains c pre rest with ⟨s1, s2, hs⟩
      exact ⟨"Requested path " ++ s1, s2
        ++ " not found within tree anchored at " ++ joinPath root.info.path ++ ".", by
          rw [hs]
          simp [String.append_assoc]⟩

/-- Witness for C5 on a concrete two-level tree: extraction at the root
path succeeds, and extraction of a missing child name fails with a
message containing that name. -/
theorem extract_subtree_spec_witness :
    extract_subtree extractWitnessTree extractWitnessTree.info.path = .ok extractWitnessTree
    ∧ ∃ msg, extract_subtree extractWitnessTree ["root", "missing"] = .error msg
        ∧ ∃ s1 s2, msg = s1 ++ "missing" ++ s2 := by
  refine ⟨(extract_subtree_spec extractWitnessTree).1, ?_⟩
  exact (extract_subtree_spec extractWitnessTree).2 ["root", "missing"] [] [] "missing"
    extractWitnessTree (by decide) (by decide) (by rfl) (by rfl)

/-! ### C6: root identification in `build_tree` -/

theorem findLastRoot_mem :
    ∀ (recs : List DirPayload) (acc : Option DirPayload) (r : DirPayload),
      recs.foldl (fun acc d => if d.parent_id = none then some d else acc) acc = some r →
      (r ∈ recs ∧ r.parent_id = none) ∨ acc = some r
  | [], acc, r, h => Or.inr h
  | d :: rest, acc, r, h => by
    rcases findLastRoot_mem rest (if d.parent_id = none then some d else acc) r h with
      hmem | hacc
    · exact Or.inl ⟨List.mem_cons_of_mem d hmem.1, hmem.2⟩
    · by_cases hd : d.parent_id = none
      · rw [if_pos hd] at hacc
        simp only [Option.some.injEq] at hacc
        subst hacc
        exact Or.inl ⟨List.mem_cons_self d rest, hd⟩
      · rw [if_neg hd] at hacc
        exact Or.inr hacc

theorem findLastRoot_none (recs : List DirPayload)
    (h : ∀ d ∈ recs, d.parent_id ≠ none) : findLastRoot recs = none := by
  unfold findLastRoot
  induction recs with
  | nil => rfl
  | cons d rest ih =>
    rw [List.foldl_cons, if_neg (h d (List.mem_cons_self d rest))]
    exact ih (fun e he => h e (List.mem_cons_of_mem d he))

theorem aggTree_info_id_name (t : Directory) :
    t.aggTree.info.name = t.info.name ∧ t.aggTree.info.id = t.info.id := by
  cases t with
  | mk p cs =>
    show (_sum_subdirs p _).name = p.name ∧ (_sum_subdirs p _).id = p.id
    exact ⟨rfl, rfl⟩

theorem buildNode_info (cache : List (Nat × DirPayload)) (fuel : Nat) (p : DirPayload)
    (path : List String) (t0 : Directory)
    (h : buildNode cache (fuel + 1) p path = some t0) :
    t0.info = { p with path := path } := by
  unfold buildNode at h
  rcases hsubs : (childrenPairs cache p.id).mapM
      (fun e => (buildNode cache fuel e.2 (childPath path e.2)).map (fun t => (e.1, t)))
    with _ | subs
  · rw [hsubs] at h
    exact absurd h (by simp)
  · rw [hsubs] at h
    simp only [Option.bind_eq_bind, Option.some_bind, Option.some.injEq] at h
    rw [← h]
    rfl

/-- C6 (amended). `build_tree` does fail when the record set has no
record with a null parent (an unbound-variable error, or the
incomplete-tree error if one fires first), but with several null-parent
records it does NOT fail: whenever it returns a tree, the root it
silently picked is the LAST null-parent record of the iterable. -/
theorem build_tree_root_handling :
    (∀ recs : List DirPayload, (∀ d ∈ recs, d.parent_id ≠ none) →
      ∃ msg, build_tree recs = .error msg)
    ∧ (∀ (recs : List DirPayload) (t : Directory), build_tree recs = .ok t →
        ∃ r, findLastRoot recs = some r ∧ r ∈ recs ∧ r.parent_id = none
          ∧ t.info.name = r.name ∧ t.info.id = r.id) := by
  constructor
  · intro recs h
    unfold build_tree
    split
    · exact ⟨_, rfl⟩
    · rw [findLastRoot_none recs h]
      exact ⟨_, rfl⟩
  · intro recs t h
    unfold build_tree at h
    split at h
    · exact absurd h (by simp)
    · rcases hroot : findLastRoot recs with _ | r
      · rw [hroot] at h
        replace h : (Except.error
            "UnboundLocalError: local variable root referenced before assignment"
            : Except String Directory) = .ok t := h
        exact absurd h (by simp)
      · rw [hroot] at h
        replace h : (match buildNode (buildCache recs) ((buildCache recs).length + 1)
              r [r.name] with
          | none => (Except.error
              "walk_tree does not terminate (parent cycle reachable from the root)"
              : Except String Directory)
          | some t0 => Except.ok t0.aggTree) = Except.ok t := h
        rcases hbuild : buildNode (buildCache recs) ((buildCache recs).length + 1) r [r.name]
          with _ | t0
        · rw [hbuild] at h
          replace h : (Except.error
              "walk_tree does not terminate (parent cycle reachable from the root)"
              : Except String Directory) = .ok t := h
          exact absurd h (by simp)
        · rw [hbuild] at h
          replace h : Except.ok t0.aggTree = Except.ok t := h
          simp only [Except.ok.injEq] at h
          subst h
          rcases findLastRoot_mem recs none r hroot with hmem | habs
          · have hinfo := buildNode_info (buildCache recs) ((buildCache recs).length) r
              [r.name] t0 hbuild
            refine ⟨r, rfl, hmem.1, hmem.2, ?_, ?_⟩
            · rw [(aggTree_info_id_name t0).1, hinfo]
            · rw [(aggTree_info_id_name t0).2, hinfo]
          · exact absurd habs (by simp)

/-- Counterexample for C6 as stated: with TWO null-parent records,
`build_tree` does not fail; it silently returns a tree rooted at the
last such record (`"second"`). -/
theorem build_tree_two_roots_no_error :
    (build_tree twoRootRecs).isOk = true
    ∧ ((build_tree twoRootRecs).toOption.getD
        (.mk (mkRec 0 none "unused" none none none none) .nil)).info.name = "second" := by
  constructor
  · rfl
  · rfl

/-! ### C8: `formatsize` and `parsesize` -/

theorem digitChar_isDigit (n : Nat) (h : n < 10) : (digitChar n).isDigit = true := by
  interval_cases n <;> decide

theorem digitChar_toNat (n : Nat) (h : n < 10) : (digitChar n).toNat - 48 = n := by
  interval_cases n <;> decide

theorem digitChar_not_sign (n : Nat) (h : n < 10) :
    digitChar n ≠ '-' ∧ digitChar n ≠ '+' := by
  interval_cases n <;> exact ⟨by decide, by decide⟩

theorem renderNatAux_ne_nil : ∀ (fuel n : Nat), n < fuel → renderNatAux fuel n ≠ []
  | 0, n, h => by omega
  | fuel + 1, n, _ => by
    unfold renderNatAux
    by_cases h10 : n < 10
    · rw [if_pos h10]; simp
    · rw [if_neg h10]; simp

theorem parseDigitsAux_append (l1 l2 : List Char) :
    ∀ acc, parseDigitsAux acc (l1 ++ l2)
      = match parseDigitsAux acc l1 with
        | some v => parseDigitsAux v l2
        | none => none := by
  induction l1 with
  | nil => intro acc; rfl
  | cons c r ih =>
    intro acc
    show (if c.isDigit then parseDigitsAux (acc * 10 + (c.toNat - 48)) (r ++ l2)
      else none) = _
    by_cases hc : c.isDigit
    · rw [if_pos hc, ih]
      show _ = (match (if c.isDigit then _ else none : Option Nat) with
        | some v => parseDigitsAux v l2 | none => none)
      rw [if_pos hc]
    · rw [if_neg hc]
      show _ = (match (if c.isDigit then _ else none : Option Nat) with
        | some v => parseDigitsAux v l2 | none => none)
      rw [if_neg hc]

theorem renderNatAux_parse : ∀ (fuel n : Nat), n < fuel →
    parseDigitsAux 0 (renderNatAux fuel n) = some n
  | 0, n, h => by omega
  | fuel + 1, n, h => by
    unfold renderNatAux
    by_cases h10 : n < 10
    · rw [if_pos h10]
      show (if (digitChar n).isDigit then parseDigitsAux (0 * 10 + ((digitChar n).toNat - 48)) []
        else none) = some n
      rw [if_pos (digitChar_isDigit n h10)]
      simp [parseDigitsAux, digitChar_toNat n h10]
    · rw [if_neg h10, parseDigitsAux_append]
      have hdiv : n / 10 < fuel := by omega
      rw [renderNatAux_parse fuel (n / 10) hdiv]
      show (if (digitChar (n % 10)).isDigit
        then parseDigitsAux ((n / 10) * 10 + ((digitChar (n % 10)).toNat - 48)) []
        else none) = some n
      rw [if_pos (digitChar_isDigit _ (Nat.mod_lt n (by omega)))]
      simp only [parseDigitsAux, digitChar_toNat _ (Nat.mod_lt n (by omega)),
        Option.some.injEq]
      omega

theorem renderNatAux_head_digit (fuel n : Nat) (h : n < fuel) (c : Char) (r : List Char)
    (hl : renderNatAux fuel n = c :: r) : c.isDigit = true := by
  have hmem : ∀ x ∈ renderNatAux fuel n, x.isDigit = true := by
    clear hl c r
    induction fuel generalizing n with
    | zero => omega
    | succ fuel ih =>
      intro x hx
      unfold renderNatAux at hx
      by_cases h10 : n < 10
      · rw [if_pos h10] at hx
        rcases List.mem_singleton.mp hx with rfl
        exact digitChar_isDigit n h10
      · rw [if_neg h10] at hx
        rcases List.mem_append.mp hx with hx | hx
        · exact ih (n / 10) (by omega) x hx
        · rcases List.mem_singleton.mp hx with rfl
          exact digitChar_isDigit _ (Nat.mod_lt n (by omega))
  exact hmem c (hl ▸ List.mem_cons_self c r)

theorem pyInt_renderNat (n : Nat) : pyInt (renderNat n) = some (n : Int) := by
  unfold pyInt renderNat
  rcases hl : renderNatAux (n + 1) n with _ | ⟨c, r⟩
  · exact absurd hl (renderNatAux_ne_nil (n + 1) n (Nat.lt_succ_self n))
  · have hc := renderNatAux_head_digit (n + 1) n (Nat.lt_succ_self n) c r hl
    have hsign : c ≠ '-' ∧ c ≠ '+' := by
      constructor <;> intro habs <;> subst habs <;> simp [Char.isDigit] at hc
    show (if c = '-' then _ else if c = '+' then _
      else (parseDigitsAux 0 (c :: r)).map (fun n => (n : Int))) = some (n : Int)
    rw [if_neg hsign.1, if_neg hsign.2, ← hl,
      renderNatAux_parse (n + 1) n (Nat.lt_succ_self n)]
    rfl

theorem roundHalfEven_bounds (q : Rat) :
    ((roundHalfEven q : Int) : Rat) ≤ q + 1 / 2 ∧ q - 1 / 2 ≤ ((roundHalfEven q : Int) : Rat) := by
  unfold roundHalfEven
  have hfl : ((q.floor : Int) : Rat) ≤ q := Int.floor_le q
  have hfu : q < ((q.floor : Int) : Rat) + 1 := Int.lt_floor_add_one q
  by_cases h1 : q - (q.floor : Rat) < 1 / 2
  · rw [if_pos h1]
    constructor <;> [linarith; linarith]
  · rw [if_neg h1]
    by_cases h2 : 1 / 2 < q - (q.floor : Rat)
    · rw [if_pos h2]
      push_cast
      constructor <;> linarith
    · rw [if_neg h2]
      have heq : q - (q.floor : Rat) = 1 / 2 := by linarith
      by_cases h3 : q.floor % 2 = 0
      · rw [if_pos h3]
        constructor <;> linarith
      · rw [if_neg h3]
        push_cast
        constructor <;> linarith

theorem roundHalfEven_ge_floor (q : Rat) : q.floor ≤ roundHalfEven q := by
  unfold roundHalfEven
  by_cases h1 : q - (q.floor : Rat) < 1 / 2
  · rw [if_pos h1]
  · rw [if_neg h1]
    by_cases h2 : 1 / 2 < q - (q.floor : Rat)
    · rw [if_pos h2]; omega
    · rw [if_neg h2]
      by_cases h3 : q.floor % 2 = 0
      · rw [if_pos h3]
      · rw [if_neg h3]; omega

theorem chosenUnit_mem (size : Int) (unitspec : String) (quota : Bool) :
    chosenUnit size unitspec quota ∈ symbolsList := by
  unfold chosenUnit
  by_cases hH : pyUpper unitspec = "H"
  · rw [if_pos hH]
    unfold chooseUnitH
    rcases hf : symbolsList.find? (fun u =>
        decide ((size : Rat) / (if quota then unitsQuotaVal
          else fun u => (unitsNormVal u : Rat)) u < if quota then 1000 else 1024)) with _ | u
    · simp [symbolsList]
    · simp only [Option.getD_some]
      exact List.mem_of_find?_eq_some hf
  · rw [if_neg hH]
    by_cases hn : isNormUnit (pyUpper unitspec)
    · rw [if_pos hn]
      unfold isNormUnit at hn
      simpa using hn
    · rw [if_neg hn]
      simp [symbolsList]

theorem parsesize_digits_unit (mN : Nat) (c : Char) (hc : c.isAlpha = true)
    (hunit : isNormUnit (String.mk [c]) = true) :
    parsesize (renderNat mN ++ String.mk [c])
      = .ok ((mN : Int) * unitsNormVal (String.mk [c])) := by
  have hdata : (renderNat mN ++ String.mk [c]).data
      = renderNatAux (mN + 1) mN ++ [c] := by
    rw [String.data_append]
    rfl
  have hlast : (renderNat mN ++ String.mk [c]).data.getLast? = some c := by
    rw [hdata]
    exact List.getLast?_concat _
  unfold parsesize
  rw [hlast]
  show (match (if c.isAlpha ∧ isNormUnit (String.mk [c])
        then some (unitsNormVal (String.mk [c])) else none) with
    | some factor =>
      match pyInt (String.mk (renderNat mN ++ String.mk [c]).data.dropLast) with
      | some n => Except.ok (n * factor)
      | none => Except.error ("Could not parse \"" ++ (renderNat mN ++ String.mk [c])
          ++ "\" into a size in bytes.")
    | none =>
      match pyInt (renderNat mN ++ String.mk [c]) with
      | some n => Except.ok n
      | none => Except.error ("Could not parse \"" ++ (renderNat mN ++ String.mk [c])
          ++ "\" into a size in bytes.")) = _
  rw [if_pos ⟨hc, hunit⟩]
  have hdrop : String.mk (renderNat mN ++ String.mk [c]).data.dropLast = renderNat mN := by
    rw [hdata, List.dropLast_concat]
    rfl
  rw [hdrop, pyInt_renderNat]

/-- C8 (amended).  For a non-quota unit convention, whenever the value
printed by `formatsize` has no fractional digit (the size is at least
ten times the chosen unit's factor, so `minprec = 0`), parsing the
output with `parsesize` succeeds and recovers the original byte count
to within half of the chosen unit — the rounding precision of the
printed representation.  (When the printed value is below ten,
`formatsize` emits one decimal digit, e.g. `"1.0K"`, which
`parsesize`'s integer parser rejects — see the counterexample — and
quota formatting appends a `"q"` suffix that `parsesize` likewise
rejects; the round-trip only holds in the fraction-free non-quota
case.) -/
theorem formatsize_parsesize_roundtrip (size : Nat) (unitspec : String)
    (h : 10 * unitsNormVal (chosenUnit size unitspec false) ≤ (size : Int)) :
    ∃ n : Int, parsesize (formatsize size unitspec false) = .ok n
      ∧ 2 * |n - (size : Int)| ≤ unitsNormVal (chosenUnit size unitspec false) := by
  have hu : chosenUnit size unitspec false ∈ symbolsList :=
    chosenUnit_mem size unitspec false
  have hcases : chosenUnit size unitspec false = "B" ∨ chosenUnit size unitspec false = "K"
      ∨ chosenUnit size unitspec false = "M" ∨ chosenUnit size unitspec false = "G"
      ∨ chosenUnit size unitspec false = "T" ∨ chosenUnit size unitspec false = "P" := by
    simpa [symbolsList] using hu
  have hrep : ∃ ch : Char, chosenUnit size unitspec false = String.mk [ch]
      ∧ ch.isAlpha = true ∧ isNormUnit (String.mk [ch]) = true
      ∧ 0 < unitsNormVal (String.mk [ch]) := by
    rcases hcases with h | h | h | h | h | h
    · exact ⟨'B', by rw [h], by decide, by decide, by decide⟩
    · exact ⟨'K', by rw [h], by decide, by decide, by decide⟩
    · exact ⟨'M', by rw [h], by decide, by decide, by decide⟩
    · exact ⟨'G', by rw [h], by decide, by decide, by decide⟩
    · exact ⟨'T', by rw [h], by decide, by decide, by decide⟩
    · exact ⟨'P', by rw [h], by decide, by decide, by decide⟩
  rcases hrep with ⟨ch, hch, halpha, hnorm, hpos⟩
  set fac : Int := unitsNormVal (chosenUnit size unitspec false) with hfac
  have hfacpos : 0 < fac := by rw [hfac, hch]; exact hpos
  set q : Rat := (size : Rat) / (fac : Rat) with hq
  have hfacR : (0 : Rat) < (fac : Rat) := by exact_mod_cast hfacpos
  have h10 : (10 : Rat) ≤ q := by
    rw [hq, le_div_iff₀ hfacR]
    have : ((10 * fac : Int) : Rat) ≤ ((size : Int) : Rat) := by exact_mod_cast h
    push_cast at this ⊢
    linarith
  have hfmt : formatsize size unitspec false
      = renderFixed q 0 ++ chosenUnit size unitspec false ++ "" := by
    show renderFixed ((size : Rat) / (unitsNormVal (chosenUnit size unitspec false) : Rat))
        (if ((size : Rat) / (unitsNormVal (chosenUnit size unitspec false) : Rat) < 10)
          then 1 else 0)
        ++ chosenUnit size unitspec false ++ "" = _
    rw [if_neg (not_lt.mpr h10)]
  set m : Int := roundHalfEven q with hm
  have hm10 : 10 ≤ m := by
    have hfl : (10 : Int) ≤ q.floor := by
      rw [show q.floor = Int.floor q from rfl, Int.le_floor]
      exact_mod_cast h10
    have := roundHalfEven_ge_floor q
    omega
  have hren : renderFixed q 0 = renderNat m.toNat := by
    show renderInt (roundHalfEven q) = _
    rw [← hm]
    unfold renderInt
    rw [if_neg (by omega)]
  refine ⟨(m.toNat : Int) * unitsNormVal (String.mk [ch]), ?_, ?_⟩
  · rw [hfmt, String.append_empty, hren, hch]
    exact parsesize_digits_unit m.toNat ch halpha hnorm
  · have htn : (m.toNat : Int) = m := Int.toNat_of_nonneg (by omega)
    rw [htn, ← hch, ← hfac]
    have hbounds := roundHalfEven_bounds q
    rw [← hm] at hbounds
    have hsz : (size : Rat) = q * (fac : Rat) := by
      rw [hq, div_mul_cancel₀]
      exact ne_of_gt hfacR
    have habs : |((m * fac - (size : Int) : Int) : Rat)| ≤ ((fac : Int) : Rat) / 2 := by
      push_cast
      have hexp : (m : Rat) * (fac : Rat) - (size : Rat)
          = ((m : Rat) - q) * (fac : Rat) := by
        rw [hsz]; ring
      rw [hexp, abs_le]
      have h1 : -(1 / 2 : Rat) ≤ (m : Rat) - q := by linarith [hbounds.2]
      have h2 : (m : Rat) - q ≤ 1 / 2 := by linarith [hbounds.1]
      constructor
      · nlinarith
      · nlinarith
    have hfin : ((2 * |m * fac - (size : Int)| : Int) : Rat) ≤ ((fac : Int) : Rat) := by
      push_cast
      push_cast at habs
      linarith
    exact_mod_cast hfin

/-- Counterexample for C8 as stated: formatting 1024 bytes in the `K`
convention prints `"1.0K"`, and parsing that very string raises the
`ValueError` — the byte count is not recovered at all. -/
theorem formatsize_parsesize_no_roundtrip :
    formatsize 1024 "K" false = "1.0K"
    ∧ parsesize (formatsize 1024 "K" false)
        = .error "Could not parse \"1.0K\" into a size in bytes." := by
  have hchosen : chosenUnit 1024 "K" false = "K" := rfl
  have hq : ((1024 : Int) : Rat) / ((unitsNormVal (chosenUnit 1024 "K" false) : Int) : Rat)
      = 1 := by
    rw [hchosen, show unitsNormVal "K" = 1024 from rfl]
    norm_num
  have hfmt0 : formatsize 1024 "K" false
      = renderFixed (((1024 : Int) : Rat)
            / ((unitsNormVal (chosenUnit 1024 "K" false) : Int) : Rat))
          (if ((1024 : Int) : Rat)
              / ((unitsNormVal (chosenUnit 1024 "K" false) : Int) : Rat) < 10
            then 1 else 0)
        ++ chosenUnit 1024 "K" false ++ "" := rfl
  have hround : roundHalfEven ((1 : Rat) * 10) = 10 := by
    unfold roundHalfEven
    rw [show ((1 : Rat) * 10) = ((10 : Int) : Rat) by norm_num]
    rw [show ((10 : Int) : Rat).floor = (10 : Int) from by
      rw [show ((10 : Int) : Rat).floor = Int.floor ((10 : Int) : Rat) from rfl,
        Int.floor_intCast]]
    norm_num
  have hfix : renderFixed 1 1 = "1.0" := by
    unfold renderFixed
    rw [if_neg (by omega), hround]
    rfl
  have hfmt : formatsize 1024 "K" false = "1.0K" := by
    rw [hfmt0, hq, if_pos (by norm_num), hchosen, hfix]
    rfl
  exact ⟨hfmt, by rw [hfmt]; rfl⟩

/-- Witness for C8 (amended): 15360 bytes format as `"15K"` and parse
back exactly. -/
theorem formatsize_parsesize_roundtrip_witness :
    ∃ n : Int, parsesize (formatsize 15360 "K" false) = .ok n
      ∧ 2 * |n - (15360 : Int)| ≤ unitsNormVal (chosenUnit 15360 "K" false) :=
  formatsize_parsesize_roundtrip 15360 "K" (by decide)

/-! ### C7: `walk_tree` -/

theorem attach_map_list {α β : Type} (l : List α) (f : α → β) :
    l.attach.map (fun c => f c.1) = l.map f :=
  List.attach_map_val l f

theorem walk_last_irrel_pre (maxd : Option Int) :
    ∀ (fuel : Nat) (stack : List (Directory × Nat)) (l1 l2 : Nat),
      walk_tree .pre maxd fuel stack l1 = walk_tree .pre maxd fuel stack l2
  | 0, _, _, _ => rfl
  | _ + 1, [], _, _ => rfl
  | _ + 1, (_, _) :: _, _, _ => rfl

theorem walk_last_irrel_bfs (maxd : Option Int) :
    ∀ (fuel : Nat) (stack : List (Directory × Nat)) (l1 l2 : Nat),
      walk_tree .bfs maxd fuel stack l1 = walk_tree .bfs maxd fuel stack l2
  | 0, _, _, _ => rfl
  | _ + 1, [], _, _ => rfl
  | _ + 1, (_, _) :: _, _, _ => rfl

theorem preCost_eq (maxd : Option Int) (d : Directory) (k : Nat) :
    preCost maxd d k = if cutoffp maxd k then 1
      else 1 + ((d.children.map (fun c => preCost maxd c (k + 1))).sum) := by
  rw [preCost, attach_map_list d.children (fun c => preCost maxd c (k + 1))]

theorem preVisits_eq (maxd : Option Int) (d : Directory) (k : Nat) :
    preVisits maxd d k = if cutoffp maxd k then []
      else (d, k) :: ((d.children.map (fun c => preVisits maxd c (k + 1))).flatten) := by
  rw [preVisits, attach_map_list d.children (fun c => preVisits maxd c (k + 1))]

theorem postCost_eq (maxd : Option Int) (d : Directory) (k : Nat) :
    postCost maxd d k = if cutoffp maxd k then 1
      else if d.children = [] then 1
      else 1 + ((d.children.map (fun c => postCost maxd c (k + 1))).sum) + 1 := by
  rw [postCost, attach_map_list d.children (fun c => postCost maxd c (k + 1))]

theorem postVisits_eq (maxd : Option Int) (d : Directory) (k : Nat) :
    postVisits maxd d k = if cutoffp maxd k then []
      else ((d.children.map (fun c => postVisits maxd c (k + 1))).flatten) ++ [(d, k)] := by
  rw [postVisits, attach_map_list d.children (fun c => postVisits maxd c (k + 1))]

theorem postFull_eq (d : Directory) (k : Nat) :
    postFull d k = ((d.children.map (fun c => postFull c (k + 1))).flatten) ++ [(d, k)] := by
  rw [postFull, attach_map_list d.children (fun c => postFull c (k + 1))]

theorem preFull_eq (d : Directory) (k : Nat) :
    preFull d k = (d, k) :: ((d.children.map (fun c => preFull c (k + 1))).flatten) := by
  rw [preFull, attach_map_list d.children (fun c => preFull c (k + 1))]

theorem walk_tree_cons_pre (maxd : Option Int) (fuel : Nat) (d : Directory) (k : Nat)
    (rest : List (Directory × Nat)) (lastD : Nat) :
    walk_tree .pre maxd (fuel + 1) ((d, k) :: rest) lastD
      = if cutoffp maxd k then walk_tree .pre maxd fuel rest k
        else (walk_tree .pre maxd fuel (d.children.map (fun c => (c, k + 1)) ++ rest) k).map
          (fun v => (d, k) :: v) := rfl

theorem walk_tree_cons_bfs (maxd : Option Int) (fuel : Nat) (d : Directory) (k : Nat)
    (rest : List (Directory × Nat)) (lastD : Nat) :
    walk_tree .bfs maxd (fuel + 1) ((d, k) :: rest) lastD
      = if cutoffp maxd k then walk_tree .bfs maxd fuel rest k
        else (walk_tree .bfs maxd fuel (rest ++ d.children.map (fun c => (c, k + 1))) k).map
          (fun v => (d, k) :: v) := rfl

theorem walk_tree_cons_post (maxd : Option Int) (fuel : Nat) (d : Directory) (k : Nat)
    (rest : List (Directory × Nat)) (lastD : Nat) :
    walk_tree .post maxd (fuel + 1) ((d, k) :: rest) lastD
      = if cutoffp maxd k then walk_tree .post maxd fuel rest k
        else if d.children ≠ [] ∧ lastD ≤ k then
          walk_tree .post maxd fuel
            (d.children.map (fun c => (c, k + 1)) ++ (d, k) :: rest) k
        else (walk_tree .post maxd fuel rest k).map (fun v => (d, k) :: v) := rfl

theorem walk_pre_step (maxd : Option Int) :
    ∀ (n : Nat) (d : Directory), d.sizeT = n →
    ∀ (k lastD fuel : Nat) (rest v : List (Directory × Nat)),
      walk_tree .pre maxd fuel rest k = some v →
      walk_tree .pre maxd (preCost maxd d k + fuel) ((d, k) :: rest) lastD
        = some (preVisits maxd d k ++ v) := by
  intro n
  induction n using Nat.strong_induction_on with
  | _ n ih =>
    intro d hs k lastD fuel rest v hcont
    have inner : ∀ (cs : List Directory), (∀ c ∈ cs, c.sizeT < n) →
        ∀ (k2 lastD2 fuel2 : Nat) (rest2 v2 : List (Directory × Nat)),
          walk_tree .pre maxd fuel2 rest2 k2 = some v2 →
          walk_tree .pre maxd ((cs.map (fun c => preCost maxd c k2)).sum + fuel2)
              (cs.map (fun c => (c, k2)) ++ rest2) lastD2
            = some ((cs.map (fun c => preVisits maxd c k2)).flatten ++ v2) := by
      intro cs
      induction cs with
      | nil =>
        intro _ k2 lastD2 fuel2 rest2 v2 hc
        simpa using (walk_last_irrel_pre maxd fuel2 rest2 lastD2 k2).trans hc
      | cons c cs ihl =>
        intro hsz k2 lastD2 fuel2 rest2 v2 hc
        have hc2 := ihl (fun x hx => hsz x (List.mem_cons_of_mem c hx))
          k2 k2 fuel2 rest2 v2 hc
        have := ih c.sizeT (hsz c (List.mem_cons_self c cs)) c rfl k2 lastD2
          ((cs.map (fun x => preCost maxd x k2)).sum + fuel2)
          (cs.map (fun x => (x, k2)) ++ rest2)
          ((cs.map (fun x => preVisits maxd x k2)).flatten ++ v2) hc2
        simp only [List.map_cons, List.sum_cons, List.cons_append, List.flatten_cons,
          Nat.add_assoc, List.append_assoc]
        simp only [List.map_cons, List.sum_cons, List.cons_append, List.flatten_cons,
          Nat.add_assoc, List.append_assoc] at this
        exact this
    by_cases hc : cutoffp maxd k
    · rw [preCost_eq, if_pos hc, preVisits_eq, if_pos hc, Nat.add_comm 1 fuel,
        walk_tree_cons_pre, if_pos hc]
      simpa using hcont
    · rw [preCost_eq, if_neg hc, preVisits_eq, if_neg hc]
      rw [show 1 + (d.children.map (fun c => preCost maxd c (k + 1))).sum + fuel
          = ((d.children.map (fun c => preCost maxd c (k + 1))).sum + fuel) + 1 by omega]
      rw [walk_tree_cons_pre, if_neg hc]
      rw [inner d.children (fun c hcm => hs ▸ mem_children_sizeT d c hcm) (k + 1) k fuel
        rest v ((walk_last_irrel_pre maxd fuel rest k (k + 1)).symm.trans hcont)]
      rfl

theorem walk_tree_pre_eq (maxd : Option Int) (t : Directory) :
    walk_tree .pre maxd (preCost maxd t 0 + 1) [(t, 0)] 0 = some (preVisits maxd t 0) := by
  have := walk_pre_step maxd t.sizeT t rfl 0 0 1 [] [] rfl
  simpa using this

theorem walk_post_step (maxd : Option Int) :
    ∀ (n : Nat) (d : Directory), d.sizeT = n →
    ∀ (k lastD fuel : Nat) (rest v : List (Directory × Nat)),
      lastD ≤ k →
      walk_tree .post maxd fuel rest k = some v →
      walk_tree .post maxd (postCost maxd d k + fuel) ((d, k) :: rest) lastD
        = some (postVisits maxd d k ++ v) := by
  intro n
  induction n using Nat.strong_induction_on with
  | _ n ih =>
    intro d hs k lastD fuel rest v hlast hcont
    have inner : ∀ (cs : List Directory), cs ≠ [] → (∀ c ∈ cs, c.sizeT < n) →
        ∀ (k2 lastD2 fuel2 : Nat) (rest2 v2 : List (Directory × Nat)),
          lastD2 ≤ k2 →
          walk_tree .post maxd fuel2 rest2 k2 = some v2 →
          walk_tree .post maxd ((cs.map (fun c => postCost maxd c k2)).sum + fuel2)
              (cs.map (fun c => (c, k2)) ++ rest2) lastD2
            = some ((cs.map (fun c => postVisits maxd c k2)).flatten ++ v2) := by
      intro cs
      induction cs with
      | nil => intro hne; exact absurd rfl hne
      | cons c cs ihl =>
        intro _ hsz k2 lastD2 fuel2 rest2 v2 hl2 hcont2
        by_cases hcs : cs = []
        · subst hcs
          have := ih c.sizeT (hsz c (List.mem_cons_self c [])) c rfl k2 lastD2 fuel2
            rest2 v2 hl2 hcont2
          simpa using this
        · have hrec := ihl hcs (fun x hx => hsz x (List.mem_cons_of_mem c hx))
            k2 k2 fuel2 rest2 v2 (Nat.le_refl k2) hcont2
          have := ih c.sizeT (hsz c (List.mem_cons_self c cs)) c rfl k2 lastD2
            ((cs.map (fun x => postCost maxd x k2)).sum + fuel2)
            (cs.map (fun x => (x, k2)) ++ rest2)
            ((cs.map (fun x => postVisits maxd x k2)).flatten ++ v2) hl2 hrec
          simp only [List.map_cons, List.sum_cons, List.cons_append, List.flatten_cons,
            Nat.add_assoc, List.append_assoc]
          simp only [List.map_cons, List.sum_cons, List.cons_append, List.flatten_cons,
            Nat.add_assoc, List.append_assoc] at this
          exact this
    by_cases hc : cutoffp maxd k
    · rw [postCost_eq, if_pos hc, postVisits_eq, if_pos hc, Nat.add_comm 1 fuel,
        walk_tree_cons_post, if_pos hc]
      simpa using hcont
    · by_cases hch : d.children = []
      · rw [postCost_eq, if_neg hc, if_pos hch, postVisits_eq, if_neg hc, hch,
          Nat.add_comm 1 fuel, walk_tree_cons_post, if_neg hc,
          if_neg (by simp [hch]), hcont]
        rfl
      · rw [postCost_eq, if_neg hc, if_neg hch, postVisits_eq, if_neg hc]
        rw [show 1 + (d.children.map (fun c => postCost maxd c (k + 1))).sum + 1 + fuel
            = ((d.children.map (fun c => postCost maxd c (k + 1))).sum + (1 + fuel)) + 1
          by omega]
        rw [walk_tree_cons_post, if_neg hc, if_pos (And.intro hch hlast)]
        have hcont2 : walk_tree .post maxd (1 + fuel) ((d, k) :: rest) (k + 1)
            = some ((d, k) :: v) := by
          rw [Nat.add_comm 1 fuel, walk_tree_cons_post, if_neg hc,
            if_neg (by
              rintro ⟨-, habs⟩
              omega), hcont]
          rfl
        rw [inner d.children hch (fun c hcm => hs ▸ mem_children_sizeT d c hcm) (k + 1) k
          (1 + fuel) ((d, k) :: rest) ((d, k) :: v) (Nat.le_succ k) hcont2]
        simp

theorem walk_tree_post_eq (maxd : Option Int) (t : Directory) :
    walk_tree .post maxd (postCost maxd t 0 + 1) [(t, 0)] 0 = some (postVisits maxd t 0) := by
  have := walk_post_step maxd t.sizeT t rfl 0 0 1 [] [] (Nat.le_refl 0) rfl
  simpa using this

theorem walk_tree_bfs_eq (maxd : Option Int) :
    ∀ (n : Nat) (q : List (Directory × Nat)), sumSize q = n → ∀ lastD : Nat,
      walk_tree .bfs maxd (bfsCost maxd q) q lastD = some (bfsVisits maxd q) := by
  intro n
  induction n using Nat.strong_induction_on with
  | _ n ih =>
    intro q hs lastD
    match q with
    | [] =>
      rw [show bfsCost maxd [] = 1 by rw [bfsCost],
        show bfsVisits maxd ([] : List (Directory × Nat)) = [] by rw [bfsVisits]]
      rfl
    | (d, k) :: rest =>
      have hcost : bfsCost maxd ((d, k) :: rest)
          = if cutoffp maxd k then 1 + bfsCost maxd rest
            else 1 + bfsCost maxd (rest ++ d.children.map (fun c => (c, k + 1))) := by
        rw [bfsCost]
      have hvis : bfsVisits maxd ((d, k) :: rest)
          = if cutoffp maxd k then bfsVisits maxd rest
            else (d, k) :: bfsVisits maxd (rest ++ d.children.map (fun c => (c, k + 1))) := by
        rw [bfsVisits]
      by_cases hc : cutoffp maxd k
      · rw [hcost, if_pos hc, hvis, if_pos hc, Nat.add_comm 1 (bfsCost maxd rest),
          walk_tree_cons_bfs, if_pos hc]
        exact ih (sumSize rest)
          (by rw [← hs, sumSize_cons]; have := d.sizeT_pos; omega) rest rfl k
      · rw [hcost, if_neg hc, hvis, if_neg hc,
          Nat.add_comm 1 (bfsCost maxd (rest ++ d.children.map (fun c => (c, k + 1)))),
          walk_tree_cons_bfs, if_neg hc]
        rw [ih (sumSize (rest ++ d.children.map (fun c => (c, k + 1))))
          (by
            rw [← hs, sumSize_cons, sumSize_append]
            have := sumSize_children d (k + 1)
            have := d.sizeT_pos
            omega)
          (rest ++ d.children.map (fun c => (c, k + 1))) rfl k]
        rfl

theorem cutoffp_mono (maxd : Option Int) (k k2 : Nat) (hk : k ≤ k2)
    (h : cutoffp maxd k = true) : cutoffp maxd k2 = true := by
  cases maxd with
  | none => simp [cutoffp] at h
  | some m =>
    simp only [cutoffp, Bool.and_eq_true, bne_iff_ne, decide_eq_true_eq] at h ⊢
    refine ⟨h.1, ?_⟩
    have := h.2
    omega

theorem preFull_depth (d : Directory) (k : Nat) (e : Directory × Nat)
    (hmem : e ∈ preFull d k) : k ≤ e.2 := by
  have main : ∀ (n : Nat) (d : Directory), d.sizeT = n → ∀ k e, e ∈ preFull d k → k ≤ e.2 := by
    intro n
    induction n using Nat.strong_induction_on with
    | _ n ih =>
      intro d hs k e he
      rw [preFull_eq] at he
      rcases List.mem_cons.mp he with he | he
      · subst he; exact Nat.le_refl k
      · rcases List.mem_flatten.mp he with ⟨l, hl, hel⟩
        rcases List.mem_map.mp hl with ⟨c, hc, hcl⟩
        subst hcl
        have := ih c.sizeT (hs ▸ mem_children_sizeT d c hc) c rfl (k + 1) e hel
        omega
  exact main d.sizeT d rfl k e hmem

theorem filter_preFull_nil (maxd : Option Int) (d : Directory) (k : Nat)
    (hc : cutoffp maxd k = true) :
    (preFull d k).filter (fun e => !cutoffp maxd e.2) = [] := by
  rw [List.filter_eq_nil_iff]
  intro e he
  have := cutoffp_mono maxd k e.2 (preFull_depth d k e he) hc
  simp [this]

theorem filter_flatten_eq {α : Type} (p : α → Bool) :
    ∀ l : List (List α), (l.flatten).filter p = (l.map (List.filter p)).flatten
  | [] => rfl
  | x :: r => by
    simp only [List.flatten_cons, List.filter_append, List.map_cons,
      filter_flatten_eq p r]

theorem preVisits_eq_filter (maxd : Option Int) (d : Directory) (k : Nat) :
    preVisits maxd d k = (preFull d k).filter (fun e => !cutoffp maxd e.2) := by
  have main : ∀ (n : Nat) (d : Directory), d.sizeT = n → ∀ k,
      preVisits maxd d k = (preFull d k).filter (fun e => !cutoffp maxd e.2) := by
    intro n
    induction n using Nat.strong_induction_on with
    | _ n ih =>
      intro d hs k
      by_cases hc : cutoffp maxd k
      · rw [preVisits_eq, if_pos hc, filter_preFull_nil maxd d k hc]
      · rw [preVisits_eq, if_neg hc, preFull_eq,
          List.filter_cons_of_pos (by simp [hc]), filter_flatten_eq, List.map_map]
        congr 1
        congr 1
        apply List.map_congr_left
        intro c hcm
        exact ih c.sizeT (hs ▸ mem_children_sizeT d c hcm) c rfl (k + 1)
  exact main d.sizeT d rfl k

theorem flatten_perm_of_forall {α β : Type} (l : List β) (f g : β → List α)
    (h : ∀ b ∈ l, (f b).Perm (g b)) : ((l.map f).flatten).Perm ((l.map g).flatten) := by
  induction l with
  | nil => exact List.Perm.refl []
  | cons b r ih =>
    simp only [List.map_cons, List.flatten_cons]
    exact (h b (List.mem_cons_self b r)).append
      (ih (fun x hx => h x (List.mem_cons_of_mem b hx)))

theorem postFull_perm_preFull (d : Directory) (k : Nat) :
    (postFull d k).Perm (preFull d k) := by
  have main : ∀ (n : Nat) (d : Directory), d.sizeT = n → ∀ k,
      (postFull d k).Perm (preFull d k) := by
    intro n
    induction n using Nat.strong_induction_on with
    | _ n ih =>
      intro d hs k
      rw [postFull_eq, preFull_eq]
      refine (List.perm_append_singleton (d, k) _).trans (List.Perm.cons (d, k) ?_)
      exact flatten_perm_of_forall d.children _ _
        (fun c hc => ih c.sizeT (hs ▸ mem_children_sizeT d c hc) c rfl (k + 1))
  exact main d.sizeT d rfl k

theorem mem_postFull_iff (d : Directory) (k : Nat) (e : Directory × Nat) :
    e ∈ postFull d k ↔ e ∈ preFull d k :=
  (postFull_perm_preFull d k).mem_iff

theorem postVisits_eq_filter (maxd : Option Int) (d : Directory) (k : Nat) :
    postVisits maxd d k = (postFull d k).filter (fun e => !cutoffp maxd e.2) := by
  have main : ∀ (n : Nat) (d : Directory), d.sizeT = n → ∀ k,
      postVisits maxd d k = (postFull d k).filter (fun e => !cutoffp maxd e.2) := by
    intro n
    induction n using Nat.strong_induction_on with
    | _ n ih =>
      intro d hs k
      by_cases hc : cutoffp maxd k
      · rw [postVisits_eq, if_pos hc, List.filter_eq_nil_iff.mpr]
        intro e he
        rw [mem_postFull_iff] at he
        have := cutoffp_mono maxd k e.2 (preFull_depth d k e he) hc
        simp [this]
      · rw [postVisits_eq, if_neg hc, postFull_eq, List.filter_append,
          List.filter_cons_of_pos (by simp [hc]), List.filter_nil,
          filter_flatten_eq, List.map_map]
        congr 2
        apply List.map_congr_left
        intro c hcm
        exact ih c.sizeT (hs ▸ mem_children_sizeT d c hcm) c rfl (k + 1)
  exact main d.sizeT d rfl k

theorem bfsVisits_nil (maxd : Option Int) : bfsVisits maxd [] = [] := by
  rw [bfsVisits]

theorem bfsVisits_cons (maxd : Option Int) (d : Directory) (k : Nat)
    (rest : List (Directory × Nat)) :
    bfsVisits maxd ((d, k) :: rest)
      = if cutoffp maxd k then bfsVisits maxd rest
        else (d, k) :: bfsVisits maxd (rest ++ d.children.map (fun c => (c, k + 1))) := by
  rw [bfsVisits]

theorem bfsVisits_perm (maxd : Option Int) :
    ∀ (n : Nat) (q : List (Directory × Nat)), sumSize q = n →
      (bfsVisits maxd q).Perm
        (((q.map (fun e => preFull e.1 e.2)).flatten).filter (fun e => !cutoffp maxd e.2)) := by
  intro n
  induction n using Nat.strong_induction_on with
  | _ n ih =>
    intro q hs
    match q with
    | [] => rw [bfsVisits_nil]; exact List.Perm.refl _
    | (d, k) :: rest =>
      rw [bfsVisits_cons, List.map_cons, List.flatten_cons, List.filter_append]
      by_cases hc : cutoffp maxd k
      · rw [if_pos hc, filter_preFull_nil maxd d k hc, List.nil_append]
        exact ih (sumSize rest)
          (by rw [← hs, sumSize_cons]; have := d.sizeT_pos; omega) rest rfl
      · rw [if_neg hc, preFull_eq, List.filter_cons_of_pos (by simp [hc])]
        have hperm := ih (sumSize (rest ++ d.children.map (fun c => (c, k + 1))))
          (by
            rw [← hs, sumSize_cons, sumSize_append]
            have := sumSize_children d (k + 1)
            have := d.sizeT_pos
            omega)
          (rest ++ d.children.map (fun c => (c, k + 1))) rfl
        rw [List.map_append, List.flatten_append, List.filter_append] at hperm
        have hch : ((d.children.map (fun c => (c, k + 1))).map
              (fun e => preFull e.1 e.2)).flatten
            = (d.children.map (fun c => preFull c (k + 1))).flatten := by
          rw [List.map_map]
          rfl
        rw [hch] at hperm
        refine List.Perm.cons (d, k) (hperm.trans ?_)
        exact List.perm_append_comm

theorem bfs_lb (maxd : Option Int) :
    ∀ (n : Nat) (q : List (Directory × Nat)), sumSize q = n →
      ∀ lb, (∀ e ∈ q, lb ≤ e.2) → ∀ v ∈ bfsVisits maxd q, lb ≤ v.2 := by
  intro n
  induction n using Nat.strong_induction_on with
  | _ n ih =>
    intro q hs lb hq v hv
    match q with
    | [] => rw [bfsVisits_nil] at hv; simp at hv
    | (d, k) :: rest =>
      rw [bfsVisits_cons] at hv
      by_cases hc : cutoffp maxd k
      · rw [if_pos hc] at hv
        exact ih (sumSize rest)
          (by rw [← hs, sumSize_cons]; have := d.sizeT_pos; omega) rest rfl lb
          (fun e he => hq e (List.mem_cons_of_mem _ he)) v hv
      · rw [if_neg hc] at hv
        rcases List.mem_cons.mp hv with hv | hv
        · subst hv; exact hq (d, k) (List.mem_cons_self _ _)
        · refine ih (sumSize (rest ++ d.children.map (fun c => (c, k + 1))))
            (by
              rw [← hs, sumSize_cons, sumSize_append]
              have := sumSize_children d (k + 1)
              have := d.sizeT_pos
              omega)
            (rest ++ d.children.map (fun c => (c, k + 1))) rfl lb ?_ v hv
          intro e he
          rcases List.mem_append.mp he with he | he
          · exact hq e (List.mem_cons_of_mem _ he)
          · rcases List.mem_map.mp he with ⟨c, _, hce⟩
            have := hq (d, k) (List.mem_cons_self _ _)
            rw [← hce]
            simp only []
            omega

theorem sorted_const_list (l : List Directory) (m : Nat) :
    List.Sorted (· ≤ ·) ((l.map (fun e => (e, m))).map Prod.snd) := by
  induction l with
  | nil => simp
  | cons c r ih =>
    simp only [List.map_cons]
    rw [List.sorted_cons]
    refine ⟨?_, ih⟩
    intro b hb
    simp only [List.map_map, List.mem_map] at hb
    rcases hb with ⟨x, _, hx⟩
    simp only [Function.comp] at hx
    omega

theorem bfs_sorted (maxd : Option Int) :
    ∀ (n : Nat) (q : List (Directory × Nat)), sumSize q = n →
      List.Sorted (· ≤ ·) (q.map Prod.snd) →
      (∀ e ∈ q, ∀ e2 ∈ q, e.2 ≤ e2.2 + 1) →
      List.Sorted (· ≤ ·) ((bfsVisits maxd q).map Prod.snd) := by
  intro n
  induction n using Nat.strong_induction_on with
  | _ n ih =>
    intro q hs hsort hwin
    match q with
    | [] => rw [bfsVisits_nil]; simp
    | (d, k) :: rest =>
      have hsort2 : List.Sorted (· ≤ ·) (k :: rest.map Prod.snd) := by
        simpa using hsort
      have hhead : ∀ e ∈ rest, k ≤ e.2 := fun e he =>
        (List.sorted_cons.mp hsort2).1 e.2 (List.mem_map.mpr ⟨e, he, rfl⟩)
      have htail : List.Sorted (· ≤ ·) (rest.map Prod.snd) := (List.sorted_cons.mp hsort2).2
      rw [bfsVisits_cons]
      by_cases hc : cutoffp maxd k
      · rw [if_pos hc]
        refine ih (sumSize rest)
          (by rw [← hs, sumSize_cons]; have := d.sizeT_pos; omega) rest rfl htail ?_
        exact fun e he e2 he2 =>
          hwin e (List.mem_cons_of_mem _ he) e2 (List.mem_cons_of_mem _ he2)
      · rw [if_neg hc]
        simp only [List.map_cons]
        rw [List.sorted_cons]
        constructor
        · intro b hb
          rcases List.mem_map.mp hb with ⟨v, hv, hbv⟩
          subst hbv
          refine bfs_lb maxd (sumSize (rest ++ d.children.map (fun c => (c, k + 1))))
            _ rfl k ?_ v hv
          intro e he
          rcases List.mem_append.mp he with he | he
          · exact hhead e he
          · rcases List.mem_map.mp he with ⟨c, _, hce⟩
            rw [← hce]
            simp only []
            omega
        · refine ih (sumSize (rest ++ d.children.map (fun c => (c, k + 1))))
            (by
              rw [← hs, sumSize_cons, sumSize_append]
              have := sumSize_children d (k + 1)
              have := d.sizeT_pos
              omega)
            (rest ++ d.children.map (fun c => (c, k + 1))) rfl ?_ ?_
          · rw [List.map_append]
            refine List.pairwise_append.mpr ⟨htail, sorted_const_list _ _, ?_⟩
            intro a ha b hb
            rcases List.mem_map.mp ha with ⟨e, he, hae⟩
            rcases List.mem_map.mp hb with ⟨e2, he2, hbe⟩
            rcases List.mem_map.mp he2 with ⟨c, _, hce⟩
            subst hae
            subst hbe
            have h1 := hwin e (List.mem_cons_of_mem _ he) (d, k) (List.mem_cons_self _ _)
            rw [← hce]
            simp only [] at h1 ⊢
            omega
          · intro e he e2 he2
            rcases List.mem_append.mp he with he | he <;>
              rcases List.mem_append.mp he2 with he2 | he2
            · exact hwin e (List.mem_cons_of_mem _ he) e2 (List.mem_cons_of_mem _ he2)
            · rcases List.mem_map.mp he2 with ⟨c, _, hce⟩
              have h1 := hwin e (List.mem_cons_of_mem _ he) (d, k) (List.mem_cons_self _ _)
              rw [← hce]
              simp only [] at h1 ⊢
              omega
            · rcases List.mem_map.mp he with ⟨c, _, hce⟩
              have h1 := hhead e2 he2
              rw [← hce]
              simp only []
              omega
            · rcases List.mem_map.mp he with ⟨c, _, hce⟩
              rcases List.mem_map.mp he2 with ⟨c2, _, hce2⟩
              rw [← hce, ← hce2]
              simp only []
              omega

theorem mem_filter_depth_lt (maxd : Option Int) (m : Int) (hm : maxd = some m)
    (h0 : m ≠ 0) (l : List (Directory × Nat)) (e : Directory × Nat)
    (he : e ∈ l.filter (fun e => !cutoffp maxd e.2)) : (e.2 : Int) < m := by
  have hc : cutoffp maxd e.2 = false := by
    have := (List.mem_filter.mp he).2
    simpa using this
  subst hm
  by_contra hlt
  push_neg at hlt
  have : cutoffp (some m) e.2 = true := by
    simp only [cutoffp, Bool.and_eq_true, bne_iff_ne, decide_eq_true_eq]
    exact ⟨h0, hlt⟩
  rw [this] at hc
  exact absurd hc (by simp)

/-- C7 (amended). With the fuel bound `walkFuel` the `walk_tree` loop
terminates and returns its visit sequence `vs`; `vs` is a permutation
of the nodes whose depth passes the cutoff test, each exactly once (the
full enumeration `preFull` lists every node once); when the cutoff is a
nonzero integer `m`, every visited node has depth strictly below `m`
(so nodes at or beyond the cutoff are never visited — but a cutoff of
`0` is falsy in Python and disables pruning entirely, which is the
correction to the claim); pre-order visits are exactly the pruned
root-before-subtree enumeration, post-order visits exactly the pruned
children-before-parent enumeration, and breadth-first visits are in
never-decreasing depth order (level by level). -/
theorem walk_tree_spec (order : WalkOrder) (maxd : Option Int) (t : Directory) :
    ∃ vs, walk_tree order maxd (walkFuel order maxd t) [(t, 0)] 0 = some vs
      ∧ vs.Perm ((preFull t 0).filter (fun e => !cutoffp maxd e.2))
      ∧ (∀ m : Int, maxd = some m → m ≠ 0 → ∀ e ∈ vs, (e.2 : Int) < m)
      ∧ (order = .pre → vs = (preFull t 0).filter (fun e => !cutoffp maxd e.2))
      ∧ (order = .post → vs = (postFull t 0).filter (fun e => !cutoffp maxd e.2))
      ∧ (order = .bfs → List.Sorted (· ≤ ·) (vs.map Prod.snd)) := by
  cases order with
  | pre =>
    refine ⟨preVisits maxd t 0, walk_tree_pre_eq maxd t, ?_, ?_, ?_, ?_, ?_⟩
    · rw [preVisits_eq_filter]
    · intro m hm h0 e he
      rw [preVisits_eq_filter] at he
      exact mem_filter_depth_lt maxd m hm h0 _ e he
    · intro _; rw [preVisits_eq_filter]
    · intro h; exact absurd h (by simp)
    · intro h; exact absurd h (by simp)
  | post =>
    refine ⟨postVisits maxd t 0, walk_tree_post_eq maxd t, ?_, ?_, ?_, ?_, ?_⟩
    · rw [postVisits_eq_filter]
      exact (postFull_perm_preFull t 0).filter _
    · intro m hm h0 e he
      rw [postVisits_eq_filter] at he
      have := ((postFull_perm_preFull t 0).filter
        (fun e => !cutoffp maxd e.2)).mem_iff.mp he
      exact mem_filter_depth_lt maxd m hm h0 _ e this
    · intro h; exact absurd h (by simp)
    · intro _; rw [postVisits_eq_filter]
    · intro h; exact absurd h (by simp)
  | bfs =>
    refine ⟨bfsVisits maxd [(t, 0)],
      walk_tree_bfs_eq maxd (sumSize [(t, 0)]) [(t, 0)] rfl 0, ?_, ?_, ?_, ?_, ?_⟩
    · have := bfsVisits_perm maxd (sumSize [(t, 0)]) [(t, 0)] rfl
      simpa using this
    · intro m hm h0 e he
      have hperm := bfsVisits_perm maxd (sumSize [(t, 0)]) [(t, 0)] rfl
      have := hperm.mem_iff.mp he
      simp only [List.map_cons, List.map_nil, List.flatten_cons, List.flatten_nil,
        List.append_nil] at this
      exact mem_filter_depth_lt maxd m hm h0 _ e this
    · intro h; exact absurd h (by simp)
    · intro h; exact absurd h (by simp)
    · intro _
      refine bfs_sorted maxd (sumSize [(t, 0)]) [(t, 0)] rfl (by simp) ?_
      intro e he e2 _
      rcases List.mem_singleton.mp he with rfl
      omega

/-- Counterexample for C7 as stated: with `maxdepth = 0` every node is
at or beyond the cutoff, yet the loop still invokes the callback on the
root (depth `0 ≥ 0`), because `0` is falsy in Python and disables the
cutoff test. -/
theorem walk_tree_maxdepth_zero_visits :
    walk_tree .pre (some 0) 2
        [(.mk (mkRec 1 none "root" none none none none) .nil, 0)] 0
      = some [(.mk (mkRec 1 none "root" none none none none) .nil, 0)] ∧ (0 : Int) ≤ 0 := by
  constructor
  · rfl
  · omega

/-- Witness for C7 at a concrete tree, order and cutoff. -/
theorem walk_tree_spec_witness :
    ∃ vs, walk_tree .pre (some 2) (walkFuel .pre (some 2) filterWitnessTree)
        [(filterWitnessTree, 0)] 0 = some vs
      ∧ vs = (preFull filterWitnessTree 0).filter (fun e => !cutoffp (some 2) e.2)
      ∧ ∀ e ∈ vs, (e.2 : Int) < 2 := by
  obtain ⟨vs, h1, _, h3, h4, _, _⟩ := walk_tree_spec .pre (some 2) filterWitnessTree
  exact ⟨vs, h1, h4 rfl, fun e he => h3 2 rfl (by decide) e he⟩

/-- Witness for C6 (amended) at concrete inputs: a record set with no
null parent makes `build_tree` fail, and on `twoRootRecs` the returned
root is the last null-parent record. -/
theorem build_tree_root_handling_witness :
    (∃ msg, build_tree noRootRecs = .error msg)
    ∧ ∃ r, findLastRoot twoRootRecs = some r ∧ r ∈ twoRootRecs ∧ r.parent_id = none
        ∧ ((build_tree twoRootRecs).toOption.getD
            (.mk (mkRec 0 none "unused" none none none none) .nil)).info.name = r.name
        ∧ ((build_tree twoRootRecs).toOption.getD
            (.mk (mkRec 0 none "unused" none none none none) .nil)).info.id = r.id := by
  constructor
  · exact build_tree_root_handling.1 noRootRecs (by decide)
  · exact build_tree_root_handling.2 twoRootRecs
      ((build_tree twoRootRecs).toOption.getD
        (.mk (mkRec 0 none "unused" none none none none) .nil)) (by rfl)

/-! ### C3, C4, C10: the parallel scanner -/

theorem preRefl (l : List String) : l <+: l := ⟨[], List.append_nil l⟩

theorem preTrans {a b c : List String} (h1 : a <+: b) (h2 : b <+: c) : a <+: c := by
  obtain ⟨t1, rfl⟩ := h1
  obtain ⟨t2, rfl⟩ := h2
  exact ⟨t1 ++ t2, (List.append_assoc a t1 t2).symm⟩

theorem preAntisymm {a b : List String} (h1 : a <+: b) (h2 : b <+: a) : a = b := by
  obtain ⟨t1, rfl⟩ := h1
  obtain ⟨t2, ht⟩ := h2
  have hl := congrArg List.length ht
  rw [List.length_append, List.length_append] at hl
  have ht1 : t1 = [] := List.eq_nil_of_length_eq_zero (by omega)
  subst ht1
  simp

theorem preLength {a b : List String} (h : a <+: b) : a.length ≤ b.length := by
  obtain ⟨t, rfl⟩ := h
  simp

theorem preLengthLt {a b : List String} (h : a <+: b) (hne : a ≠ b) :
    a.length < b.length := by
  obtain ⟨t, rfl⟩ := h
  rcases t with _ | ⟨x, r⟩
  · exact absurd (List.append_nil a).symm hne
  · simp

theorem preConcat {q l : List String} {a : String} (h : q <+: l ++ [a]) :
    q = l ++ [a] ∨ q <+: l := by
  obtain ⟨t, ht⟩ := h
  rcases t.eq_nil_or_concat with rfl | ⟨t2, b, rfl⟩
  · left
    simpa using ht
  · right
    rw [List.concat_eq_append, ← List.append_assoc] at ht
    have h2 := List.append_inj' ht rfl
    exact ⟨t2, h2.1⟩

theorem preDropLast {q p : List String} (h : q <+: p) (hne : q ≠ p) :
    q <+: p.dropLast := by
  obtain ⟨t, rfl⟩ := h
  rcases t.eq_nil_or_concat with rfl | ⟨t2, b, rfl⟩
  · exact absurd (List.append_nil q).symm hne
  · rw [List.concat_eq_append, ← List.append_assoc, List.dropLast_concat]
    exact ⟨t2, rfl⟩

theorem dropLastPre (l : List String) : l.dropLast <+: l := by
  rcases l.eq_nil_or_concat with rfl | ⟨t2, b, rfl⟩
  · exact ⟨[], rfl⟩
  · rw [List.concat_eq_append, List.dropLast_concat]
    exact ⟨[b], rfl⟩

theorem isUnderPath_iff_pre : ∀ b p : List String, isUnderPath b p = true ↔ b <+: p := by
  intro b
  induction b with
  | nil =>
    intro p
    constructor
    · intro _
      exact ⟨p, rfl⟩
    · intro _
      rfl
  | cons x bs ih =>
    intro p
    cases p with
    | nil =>
      constructor
      · intro h
        exact Bool.noConfusion h
      · rintro ⟨t, ht⟩
        exact List.noConfusion ht
    | cons y ps =>
      rw [show isUnderPath (x :: bs) (y :: ps) = (decide (x = y) && isUnderPath bs ps)
        from rfl]
      rw [Bool.and_eq_true, decide_eq_true_iff, ih]
      constructor
      · rintro ⟨rfl, t, rfl⟩
        exact ⟨t, rfl⟩
      · rintro ⟨t, ht⟩
        have ht2 : x :: (bs ++ t) = y :: ps := ht
        injection ht2 with hh1 hh2
        exact ⟨hh1, t, hh2⟩

theorem assocLookup_isSome_of_mem {κ α : Type} [DecidableEq κ] (l : List (κ × α))
    (k : κ) (v : α) (h : (k, v) ∈ l) : (assocLookup l k).isSome = true := by
  induction l with
  | nil => cases h
  | cons e r ih =>
    rcases e with ⟨k2, v2⟩
    show (if k2 = k then some v2 else assocLookup r k).isSome = true
    by_cases hk : k2 = k
    · rw [if_pos hk]
      rfl
    · rw [if_neg hk]
      rcases List.mem_cons.mp h with heq | hmem
      · injection heq with hh1 hh2
        exact absurd hh1.symm hk
      · exact ih hmem

theorem dirLookup_upsert (db : List (List String × ScanStatus)) (p : List String)
    (st : ScanStatus) (q : List String) :
    dirLookup (dirUpsert db p st) q = if q = p then some st else dirLookup db q := by
  show assocLookup (dirUpsert db p st) q = if q = p then some st else assocLookup db q
  induction db with
  | nil =>
    show (if p = q then some st else none) = _
    by_cases h : q = p
    · rw [if_pos h.symm, if_pos h]
    · rw [if_neg (fun hh => h hh.symm), if_neg h]
      rfl
  | cons e r ih =>
    rcases e with ⟨k, v⟩
    by_cases hkp : k = p
    · rw [show dirUpsert ((k, v) :: r) p st = (k, st) :: r from by
        simp only [dirUpsert]
        rw [if_pos hkp]]
      show (if k = q then some st else assocLookup r q) = _
      by_cases hqp : q = p
      · rw [if_pos (hkp.trans hqp.symm), if_pos hqp]
      · have hkq : ¬(k = q) := fun hh => hqp (hh.symm.trans hkp)
        rw [if_neg hkq, if_neg hqp]
        show _ = (if k = q then some v else assocLookup r q)
        rw [if_neg hkq]
    · rw [show dirUpsert ((k, v) :: r) p st = (k, v) :: dirUpsert r p st from by
        simp only [dirUpsert]
        rw [if_neg hkp]]
      show (if k = q then some v else assocLookup (dirUpsert r p st) q) = _
      by_cases hkq : k = q
      · have hqp : ¬(q = p) := fun hh => hkp (hkq.trans hh)
        rw [if_pos hkq, if_neg hqp]
        show _ = (if k = q then some v else assocLookup r q)
        rw [if_pos hkq]
      · rw [if_neg hkq, ih]
        by_cases hqp : q = p
        · rw [if_pos hqp, if_pos hqp]
        · rw [if_neg hqp, if_neg hqp]
          show _ = (if k = q then some v else assocLookup r q)
          rw [if_neg hkq]

theorem dirFromPathDb_lookup : ∀ (fuel : Nat) (db : List (List String × ScanStatus))
    (path base : List String) (dbc : List (List String × ScanStatus)),
    dirFromPathDb fuel db path base = some dbc →
    ∀ q, dirLookup dbc q = dirLookup db q ∨
      (dirLookup db q = none ∧ dirLookup dbc q = some .NOT_SCANNED ∧
        base <+: q ∧ q <+: path) := by
  intro fuel
  induction fuel with
  | zero =>
    intro db path base dbc h q
    cases h
  | succ n ih =>
    intro db path base dbc h q
    simp only [dirFromPathDb] at h
    by_cases h1 : (dirLookup db path).isSome = true
    · rw [if_pos h1] at h
      injection h with h
      subst h
      left
      rfl
    · rw [if_neg h1] at h
      by_cases h2 : path = base
      · rw [if_pos h2] at h
        injection h with h
        subst h
        rw [dirLookup_upsert]
        by_cases hq : q = path
        · right
          refine ⟨?_, ?_, ?_, ?_⟩
          · rw [hq]
            exact Option.not_isSome_iff_eq_none.mp h1
          · rw [if_pos hq]
          · rw [hq, h2]
          · rw [hq]
        · left
          rw [if_neg hq]
      · rw [if_neg h2] at h
        by_cases h3 : isUnderPath base path = true
        · rw [if_pos h3] at h
          rcases hrec : dirFromPathDb n db path.dropLast base with _ | db2
          · rw [hrec] at h
            cases h
          · rw [hrec] at h
            injection h with h
            subst h
            rw [dirLookup_upsert]
            by_cases hq : q = path
            · right
              refine ⟨?_, ?_, ?_, ?_⟩
              · rw [hq]
                exact Option.not_isSome_iff_eq_none.mp h1
              · rw [if_pos hq]
              · rw [hq]
                exact (isUnderPath_iff_pre base path).mp h3
              · rw [hq]
            · rw [if_neg hq]
              rcases ih db path.dropLast base db2 hrec q with hsame | ⟨hnone, hset, hbq, hqp⟩
              · left
                exact hsame
              · right
                exact ⟨hnone, hset, hbq, preTrans hqp (dropLastPre path)⟩
        · rw [if_neg h3] at h
          cases h

theorem chain_upsert_lookup (fuel : Nat) (db : List (List String × ScanStatus))
    (p base : List String) (dbc : List (List String × ScanStatus)) (st : ScanStatus)
    (h : dirFromPathDb fuel db p base = some dbc)
    (hanc : ∀ q, base <+: q → q <+: p → q ≠ p → (dirLookup db q).isSome = true) :
    ∀ q, dirLookup (dirUpsert dbc p st) q = if q = p then some st else dirLookup db q := by
  intro q
  rw [dirLookup_upsert]
  by_cases hq : q = p
  · rw [if_pos hq, if_pos hq]
  · rw [if_neg hq, if_neg hq]
    rcases dirFromPathDb_lookup fuel db p base dbc h q with hsame | ⟨hnone, _, hbq, hqp⟩
    · exact hsame
    · have hs := hanc q hbq hqp hq
      rw [hnone] at hs
      exact Bool.noConfusion hs

theorem dirFromPathDb_isSome : ∀ (fuel : Nat) (path : List String)
    (db : List (List String × ScanStatus)) (base : List String),
    base <+: path → path.length < fuel + base.length →
    (dirFromPathDb fuel db path base).isSome = true := by
  intro fuel
  induction fuel with
  | zero =>
    intro path db base hb hf
    have := preLength hb
    omega
  | succ n ih =>
    intro path db base hb hf
    simp only [dirFromPathDb]
    by_cases h1 : (dirLookup db path).isSome = true
    · rw [if_pos h1]
      rfl
    · rw [if_neg h1]
      by_cases h2 : path = base
      · rw [if_pos h2]
        rfl
      · rw [if_neg h2, if_pos ((isUnderPath_iff_pre base path).mpr hb)]
        have hbd : base <+: path.dropLast := preDropLast hb (fun hh => h2 hh.symm)
        have hlt : base.length < path.length := preLengthLt hb (fun hh => h2 hh.symm)
        have hres := ih path.dropLast db base hbd (by
          rw [List.length_dropLast]
          omega)
        rcases hr : dirFromPathDb n db path.dropLast base with _ | db2
        · rw [hr] at hres
          exact Bool.noConfusion hres
        · rfl

theorem fsResolve_append (a b : List String) : ∀ n : FsNode,
    fsResolve n (a ++ b) = (fsResolve n a).bind (fun m => fsResolve m b) := by
  induction a with
  | nil =>
    intro n
    simp [fsResolve]
  | cons c r ih =>
    intro n
    cases n with
    | denied => simp [fsResolve]
    | ok m fls subs =>
      show fsResolve _ (c :: (r ++ b)) = _
      rw [show fsResolve (FsNode.ok m fls subs) (c :: (r ++ b))
            = match assocLookup subs c with
              | some m2 => fsResolve m2 (r ++ b)
              | none => none from rfl]
      rcases h : assocLookup subs c with _ | m2
      · simp [fsResolve, h]
      · simp only [fsResolve, h, ih]

theorem fsResolve_child (fs : FsNode) (root p : List String) (m : Int)
    (fls : List (String × FileStat)) (subs : List (String × FsNode))
    (hroot : root <+: p)
    (hres : fsResolve fs (p.drop root.length) = some (.ok m fls subs))
    (e : String × FsNode) (he : e ∈ subs) :
    (fsResolve fs ((p ++ [e.1]).drop root.length)).isSome = true := by
  rw [List.drop_append_of_le_length (preLength hroot), fsResolve_append, hres]
  show (fsResolve (FsNode.ok m fls subs) [e.1]).isSome = true
  have hsl := assocLookup_isSome_of_mem subs e.1 e.2 he
  rw [show fsResolve (FsNode.ok m fls subs) [e.1]
        = match assocLookup subs e.1 with
          | some m2 => fsResolve m2 []
          | none => none from rfl]
  rcases hl : assocLookup subs e.1 with _ | nd2
  · rw [hl] at hsl
    exact Bool.noConfusion hsl
  · simp [fsResolve]

theorem processSubdirs_spec (patterns : List (List String → Bool)) (parent : List String) :
    ∀ (subs : List (List String)) (db : List (List String × ScanStatus)),
    (∀ sd ∈ subs, ∃ nm, sd = parent ++ [nm]) →
    (dirLookup db parent).isSome = true →
    (processSubdirs patterns parent db subs).2
        = subs.filter (fun sd => !exclude_subdir sd patterns)
    ∧ ∀ q, dirLookup (processSubdirs patterns parent db subs).1 q
        = if q ∈ subs ∧ exclude_subdir q patterns = true then some .SKIPPED_EXCLUDE
          else dirLookup db q := by
  intro subs
  induction subs with
  | nil =>
    intro db hform hpar
    constructor
    · rfl
    · intro q
      rw [if_neg (fun hh => List.not_mem_nil q hh.1)]
      rfl
  | cons sd rest ih =>
    intro db hform hpar
    obtain ⟨nm, hsd⟩ := hform sd (List.mem_cons_self sd rest)
    subst hsd
    by_cases hex : exclude_subdir (parent ++ [nm]) patterns = true
    · rw [show processSubdirs patterns parent db ((parent ++ [nm]) :: rest)
          = processSubdirs patterns parent
              (dirUpsert ((dirFromPathDb ((parent ++ [nm]).length + 1) db
                  (parent ++ [nm]) parent).getD db)
                (parent ++ [nm]) .SKIPPED_EXCLUDE) rest from by
        simp only [processSubdirs]
        rw [if_pos hex]]
      have hsome := dirFromPathDb_isSome ((parent ++ [nm]).length + 1) (parent ++ [nm])
        db parent (List.prefix_append parent [nm]) (by simp [List.length_append]; omega)
      rcases hch : dirFromPathDb ((parent ++ [nm]).length + 1) db (parent ++ [nm]) parent
        with _ | dbc
      · rw [hch] at hsome
        exact Bool.noConfusion hsome
      · rw [Option.getD_some]
        have hlookupx := chain_upsert_lookup _ db (parent ++ [nm]) parent dbc
          .SKIPPED_EXCLUDE hch
          (fun a hba hap hane => by
            rcases preConcat hap with heq | ha2
            · exact absurd heq hane
            · rw [preAntisymm ha2 hba]
              exact hpar)
        have hparx : (dirLookup (dirUpsert dbc (parent ++ [nm]) .SKIPPED_EXCLUDE)
            parent).isSome = true := by
          rw [hlookupx parent, if_neg (fun hh => by
            have := congrArg List.length hh
            simp at this)]
          exact hpar
        have hrest := ih (dirUpsert dbc (parent ++ [nm]) .SKIPPED_EXCLUDE)
          (fun sd2 hsd2 => hform sd2 (List.mem_cons_of_mem _ hsd2)) hparx
        constructor
        · rw [hrest.1]
          simp [List.filter_cons, hex]
        · intro q
          rw [hrest.2 q, hlookupx q]
          by_cases hqmem : q ∈ rest ∧ exclude_subdir q patterns = true
          · rw [if_pos hqmem, if_pos ⟨List.mem_cons_of_mem _ hqmem.1, hqmem.2⟩]
          · rw [if_neg hqmem]
            by_cases hq : q = parent ++ [nm]
            · rw [if_pos hq, if_pos ⟨by rw [hq]; exact List.mem_cons_self _ _,
                by rw [hq]; exact hex⟩]
            · rw [if_neg hq, if_neg (fun hh => by
                rcases List.mem_cons.mp hh.1 with heq | hmem2
                · exact hq heq
                · exact hqmem ⟨hmem2, hh.2⟩)]
    · rw [show processSubdirs patterns parent db ((parent ++ [nm]) :: rest)
          = ((processSubdirs patterns parent db rest).1,
              (parent ++ [nm]) :: (processSubdirs patterns parent db rest).2) from by
        simp only [processSubdirs]
        rw [if_neg hex]]
      have hrest := ih db (fun sd2 hsd2 => hform sd2 (List.mem_cons_of_mem _ hsd2)) hpar
      constructor
      · show (parent ++ [nm]) :: (processSubdirs patterns parent db rest).2 = _
        rw [hrest.1]
        simp [List.filter_cons, hex]
      · intro q
        show dirLookup (processSubdirs patterns parent db rest).1 q = _
        rw [hrest.2 q]
        by_cases hqmem : q ∈ rest ∧ exclude_subdir q patterns = true
        · rw [if_pos hqmem, if_pos ⟨List.mem_cons_of_mem _ hqmem.1, hqmem.2⟩]
        · rw [if_neg hqmem, if_neg (fun hh => by
            rcases List.mem_cons.mp hh.1 with heq | hmem2
            · rw [heq] at hh
              exact hex hh.2
            · exact hqmem ⟨hmem2, hh.2⟩)]

theorem fsResolve_nil (n : FsNode) : fsResolve n [] = some n := by
  cases n <;> rfl

theorem ScanInv_init (fs : FsNode) (root : List String)
    (patterns : List (List String → Bool)) : ScanInv fs root patterns (scanInit root) := by
  have hmem : ∀ q : List String, q ∈ [root] → q = root := fun q hq => List.mem_singleton.mp hq
  refine ⟨?_, ?_, ?_, ?_, ?_, ?_, ?_, ?_, ?_, ?_, ?_, ?_, ?_⟩
  · intro q hq
    rw [hmem q hq]
  · intro q hq
    rw [hmem q hq, List.drop_length root, fsResolve_nil]
    rfl
  · intro q hq
    exact Or.inl (hmem q hq)
  · intro q hq a h1 h2 h3
    rw [hmem q hq] at h2 h3
    exact absurd (preAntisymm h2 h1) h3
  · intro q st h
    exact Option.noConfusion h
  · intro q st h
    exact Option.noConfusion h
  · intro q h
    exact Option.noConfusion h
  · intro q h
    exact Option.noConfusion h
  · intro q h
    exact Option.noConfusion h
  · intro q st h hst
    exact Option.noConfusion h
  · intro q m fls subs h hok e he
    exact Option.noConfusion h
  · intro e he
    exact absurd he (List.not_mem_nil e)
  · exact Or.inl (List.mem_singleton.mpr rfl)

theorem ScanInv_step {fs : FsNode} {root : List String} {patterns : List (List String → Bool)}
    {s s2 : ScanState} (inv : ScanInv fs root patterns s)
    (hstep : ScanStep fs root patterns s s2) : ScanInv fs root patterns s2 := by
  obtain ⟨l1, l2, p, nd, dbc, s, hw, hres, hchain⟩ := hstep
  have hp : p ∈ s.waiting := by
    rw [hw]
    exact List.mem_append.mpr (Or.inr (List.mem_cons_self p l2))
  have hrootp : root <+: p := inv.wait_root p hp
  have hanc : ∀ q, root <+: q → q <+: p → q ≠ p → (dirLookup s.dirs q).isSome = true := by
    intro q h1 h2 h3
    rw [inv.wait_anc p hp q h1 h2 h3]
    rfl
  have hmemw : ∀ q, q ∈ l1 ++ l2 → q ∈ s.waiting := by
    intro q hq
    rw [hw]
    rcases List.mem_append.mp hq with h | h
    · exact List.mem_append.mpr (Or.inl h)
    · exact List.mem_append.mpr (Or.inr (List.mem_cons_of_mem p h))
  cases nd with
  | denied =>
    rw [show drainOne patterns p FsNode.denied dbc (l1 ++ l2) s.files
        = ⟨l1 ++ l2, dirUpsert dbc p .SKIPPED_PERMISSION, s.files⟩ from rfl]
    have hlook : ∀ q, dirLookup (dirUpsert dbc p .SKIPPED_PERMISSION) q
        = if q = p then some .SKIPPED_PERMISSION else dirLookup s.dirs q :=
      chain_upsert_lookup (p.length + 1) s.dirs p root dbc .SKIPPED_PERMISSION hchain hanc
    have hpstat : dirLookup s.dirs p = none ∨ dirLookup s.dirs p = some .SKIPPED_PERMISSION := by
      rcases hx : dirLookup s.dirs p with _ | st
      · exact Or.inl rfl
      · cases st with
        | NOT_SCANNED => exact absurd rfl (inv.db_scanned p _ hx)
        | SUCCESSFUL =>
          obtain ⟨m, fls, subs, hok⟩ := inv.db_succ p hx
          rw [hres] at hok
          simp at hok
        | SKIPPED_PERMISSION => exact Or.inr rfl
        | SKIPPED_EXCLUDE =>
          obtain ⟨hex, hnr, _⟩ := inv.db_excl p hx
          rcases inv.wait_origin p hp with h0 | ⟨hnex, _⟩
          · exact absurd h0 hnr
          · rw [hnex] at hex
            exact Bool.noConfusion hex
    have hpns : dirLookup s.dirs p ≠ some .SUCCESSFUL := by
      rcases hpstat with h | h <;> simp [h]
    have f1 : ∀ q ∈ l1 ++ l2, root <+: q := fun q hq => inv.wait_root q (hmemw q hq)
    have f2 : ∀ q ∈ l1 ++ l2, (fsResolve fs (q.drop root.length)).isSome = true :=
      fun q hq => inv.wait_resolve q (hmemw q hq)
    have f3 : ∀ q ∈ l1 ++ l2, q = root ∨ (exclude_subdir q patterns = false ∧
        dirLookup (dirUpsert dbc p .SKIPPED_PERMISSION) q.dropLast = some .SUCCESSFUL) := by
      intro q hq
      rcases inv.wait_origin q (hmemw q hq) with h | ⟨hnex, hpar⟩
      · exact Or.inl h
      · refine Or.inr ⟨hnex, ?_⟩
        rw [hlook]
        by_cases hdp : q.dropLast = p
        · exfalso
          rw [hdp] at hpar
          exact hpns hpar
        · rw [if_neg hdp]
          exact hpar
    have f4 : ∀ q ∈ l1 ++ l2, ∀ a, root <+: a → a <+: q → a ≠ q →
        dirLookup (dirUpsert dbc p .SKIPPED_PERMISSION) a = some .SUCCESSFUL := by
      intro q hq a h1 h2 h3
      have hv := inv.wait_anc q (hmemw q hq) a h1 h2 h3
      rw [hlook]
      by_cases hap : a = p
      · exfalso
        rw [hap] at hv
        exact hpns hv
      · rw [if_neg hap]
        exact hv
    have f5 : ∀ q st, dirLookup (dirUpsert dbc p .SKIPPED_PERMISSION) q = some st →
        root <+: q := by
      intro q st h
      rw [hlook] at h
      by_cases hq : q = p
      · rw [hq]
        exact hrootp
      · rw [if_neg hq] at h
        exact inv.db_root q st h
    have f6 : ∀ q st, dirLookup (dirUpsert dbc p .SKIPPED_PERMISSION) q = some st →
        st ≠ .NOT_SCANNED := by
      intro q st h
      rw [hlook] at h
      by_cases hq : q = p
      · rw [if_pos hq] at h
        injection h with h
        rw [← h]
        decide
      · rw [if_neg hq] at h
        exact inv.db_scanned q st h
    have f7 : ∀ q, dirLookup (dirUpsert dbc p .SKIPPED_PERMISSION) q
        = some .SKIPPED_PERMISSION → fsResolve fs (q.drop root.length) = some .denied := by
      intro q h
      rw [hlook] at h
      by_cases hq : q = p
      · rw [hq]
        exact hres
      · rw [if_neg hq] at h
        exact inv.db_perm q h
    have f8 : ∀ q, dirLookup (dirUpsert dbc p .SKIPPED_PERMISSION) q = some .SUCCESSFUL →
        ∃ m fls subs, fsResolve fs (q.drop root.length) = some (.ok m fls subs) := by
      intro q h
      rw [hlook] at h
      by_cases hq : q = p
      · rw [if_pos hq] at h
        injection h with h
        exact absurd h (by decide)
      · rw [if_neg hq] at h
        exact inv.db_succ q h
    have f9 : ∀ q, dirLookup (dirUpsert dbc p .SKIPPED_PERMISSION) q = some .SKIPPED_EXCLUDE →
        exclude_subdir q patterns = true ∧ q ≠ root ∧
          dirLookup (dirUpsert dbc p .SKIPPED_PERMISSION) q.dropLast = some .SUCCESSFUL := by
      intro q h
      rw [hlook] at h
      by_cases hq : q = p
      · rw [if_pos hq] at h
        injection h with h
        exact absurd h (by decide)
      · rw [if_neg hq] at h
        obtain ⟨hex, hnr, hpar⟩ := inv.db_excl q h
        refine ⟨hex, hnr, ?_⟩
        rw [hlook]
        by_cases hdp : q.dropLast = p
        · exfalso
          rw [hdp] at hpar
          exact hpns hpar
        · rw [if_neg hdp]
          exact hpar
    have f10 : ∀ q st, dirLookup (dirUpsert dbc p .SKIPPED_PERMISSION) q = some st →
        st = .SUCCESSFUL ∨ st = .SKIPPED_PERMISSION →
        q = root ∨ (exclude_subdir q patterns = false ∧
          dirLookup (dirUpsert dbc p .SKIPPED_PERMISSION) q.dropLast = some .SUCCESSFUL) := by
      intro q st h hst
      rw [hlook] at h
      by_cases hq : q = p
      · subst hq
        by_cases hpr : q = root
        · exact Or.inl hpr
        · rcases inv.wait_origin q hp with h0 | ⟨hnex, hpar⟩
          · exact absurd h0 hpr
          · refine Or.inr ⟨hnex, ?_⟩
            rw [hlook]
            have hdp : q.dropLast ≠ q := by
              intro hh
              have hlen := congrArg List.length hh
              rw [List.length_dropLast] at hlen
              have hqn : q = [] := by
                cases hq2 : q with
                | nil => rfl
                | cons a r =>
                  rw [hq2] at hlen
                  simp at hlen
              rw [hqn] at hrootp
              have hrn := preLength hrootp
              simp at hrn
              exact hpr (by rw [hqn, hrn])
            rw [if_neg hdp]
            exact hpar
      · rw [if_neg hq] at h
        rcases inv.db_parent q st h hst with h0 | ⟨hnex, hpar⟩
        · exact Or.inl h0
        · refine Or.inr ⟨hnex, ?_⟩
          rw [hlook]
          by_cases hdp : q.dropLast = p
          · exfalso
            rw [hdp] at hpar
            exact hpns hpar
          · rw [if_neg hdp]
            exact hpar
    have f11 : ∀ q m2 fls2 subs2,
        dirLookup (dirUpsert dbc p .SKIPPED_PERMISSION) q = some .SUCCESSFUL →
        fsResolve fs (q.drop root.length) = some (.ok m2 fls2 subs2) →
        ∀ e ∈ subs2,
          (exclude_subdir (q ++ [e.1]) patterns = true →
            dirLookup (dirUpsert dbc p .SKIPPED_PERMISSION) (q ++ [e.1])
              = some .SKIPPED_EXCLUDE) ∧
          (exclude_subdir (q ++ [e.1]) patterns = false →
            (q ++ [e.1]) ∈ l1 ++ l2 ∨
              dirLookup (dirUpsert dbc p .SKIPPED_PERMISSION) (q ++ [e.1])
                = some .SUCCESSFUL ∨
              dirLookup (dirUpsert dbc p .SKIPPED_PERMISSION) (q ++ [e.1])
                = some .SKIPPED_PERMISSION) := by
      intro q m2 fls2 subs2 h hok e he
      rw [hlook] at h
      by_cases hq : q = p
      · rw [if_pos hq] at h
        injection h with h
        exact absurd h (by decide)
      · rw [if_neg hq] at h
        obtain ⟨hc1, hc2⟩ := inv.db_children q m2 fls2 subs2 h hok e he
        constructor
        · intro hex
          have hrec := hc1 hex
          rw [hlook]
          by_cases hcp : q ++ [e.1] = p
          · exfalso
            rw [hcp] at hrec
            rcases hpstat with h0 | h0 <;> rw [h0] at hrec <;> simp at hrec
          · rw [if_neg hcp]
            exact hrec
        · intro hnex
          rcases hc2 hnex with hwm | hsucc | hperm
          · rw [hw] at hwm
            rcases List.mem_append.mp hwm with hin1 | hin2
            · exact Or.inl (List.mem_append.mpr (Or.inl hin1))
            · rcases List.mem_cons.mp hin2 with heq | hin2b
              · right
                right
                rw [hlook, if_pos heq]
              · exact Or.inl (List.mem_append.mpr (Or.inr hin2b))
          · right
            left
            rw [hlook]
            by_cases hcp : q ++ [e.1] = p
            · exfalso
              rw [hcp] at hsucc
              exact hpns hsucc
            · rw [if_neg hcp]
              exact hsucc
          · right
            right
            rw [hlook]
            by_cases hcp : q ++ [e.1] = p
            · rw [if_pos hcp]
            · rw [if_neg hcp]
              exact hperm
    have f12 : ∀ e ∈ s.files,
        dirLookup (dirUpsert dbc p .SKIPPED_PERMISSION) e.1 = some .SUCCESSFUL := by
      intro e he
      have hv := inv.files_succ e he
      rw [hlook]
      by_cases hep : e.1 = p
      · exfalso
        rw [hep] at hv
        exact hpns hv
      · rw [if_neg hep]
        exact hv
    have f13 : root ∈ l1 ++ l2 ∨
        dirLookup (dirUpsert dbc p .SKIPPED_PERMISSION) root = some .SUCCESSFUL ∨
        dirLookup (dirUpsert dbc p .SKIPPED_PERMISSION) root = some .SKIPPED_PERMISSION := by
      rcases inv.root_live with hrw | hrs | hrp
      · rw [hw] at hrw
        rcases List.mem_append.mp hrw with h | h
        · exact Or.inl (List.mem_append.mpr (Or.inl h))
        · rcases List.mem_cons.mp h with heq | h2
          · right
            right
            rw [hlook, if_pos heq]
          · exact Or.inl (List.mem_append.mpr (Or.inr h2))
      · right
        left
        rw [hlook]
        by_cases hrp2 : root = p
        · exfalso
          rw [hrp2] at hrs
          exact hpns hrs
        · rw [if_neg hrp2]
          exact hrs
      · right
        right
        rw [hlook]
        by_cases hrp2 : root = p
        · rw [if_pos hrp2]
        · rw [if_neg hrp2]
          exact hrp
    exact ⟨f1, f2, f3, f4, f5, f6, f7, f8, f9, f10, f11, f12, f13⟩
  | ok m fls subs =>
    rw [show drainOne patterns p (FsNode.ok m fls subs) dbc (l1 ++ l2) s.files
        = ⟨(l1 ++ l2) ++ (processSubdirs patterns p (dirUpsert dbc p .SUCCESSFUL)
              (subs.map (fun e => p ++ [e.1]))).2,
            (processSubdirs patterns p (dirUpsert dbc p .SUCCESSFUL)
              (subs.map (fun e => p ++ [e.1]))).1,
            s.files ++ fls.map (fun f => (p, f))⟩ from rfl]
    set sdP := subs.map (fun e : String × FsNode => p ++ [e.1]) with hsdP
    set db1 := dirUpsert dbc p .SUCCESSFUL with hdb1
    set pr := processSubdirs patterns p db1 sdP with hpr
    have hlook1 : ∀ q, dirLookup db1 q = if q = p then some .SUCCESSFUL
        else dirLookup s.dirs q :=
      chain_upsert_lookup (p.length + 1) s.dirs p root dbc .SUCCESSFUL hchain hanc
    have hparSome : (dirLookup db1 p).isSome = true := by
      rw [hlook1 p, if_pos rfl]
      rfl
    have hform : ∀ sd ∈ sdP, ∃ nm, sd = p ++ [nm] := by
      intro sd hsd
      rw [hsdP] at hsd
      obtain ⟨e, he, heq⟩ := List.mem_map.mp hsd
      exact ⟨e.1, heq.symm⟩
    have hps := processSubdirs_spec patterns p sdP db1 hform hparSome
    have hlook : ∀ q, dirLookup pr.1 q =
        if q ∈ sdP ∧ exclude_subdir q patterns = true then some .SKIPPED_EXCLUDE
        else if q = p then some .SUCCESSFUL else dirLookup s.dirs q := by
      intro q
      rw [hps.2 q]
      by_cases h : q ∈ sdP ∧ exclude_subdir q patterns = true
      · rw [if_pos h, if_pos h]
      · rw [if_neg h, if_neg h, hlook1 q]
    have hpstat : dirLookup s.dirs p = none ∨ dirLookup s.dirs p = some .SUCCESSFUL := by
      rcases hx : dirLookup s.dirs p with _ | st
      · exact Or.inl rfl
      · cases st with
        | NOT_SCANNED => exact absurd rfl (inv.db_scanned p _ hx)
        | SUCCESSFUL => exact Or.inr rfl
        | SKIPPED_PERMISSION =>
          have hden := inv.db_perm p hx
          rw [hres] at hden
          simp at hden
        | SKIPPED_EXCLUDE =>
          obtain ⟨hex, hnr, _⟩ := inv.db_excl p hx
          rcases inv.wait_origin p hp with h0 | ⟨hnex, _⟩
          · exact absurd h0 hnr
          · rw [hnex] at hex
            exact Bool.noConfusion hex
    have hpnp : dirLookup s.dirs p ≠ some .SKIPPED_PERMISSION := by
      rcases hpstat with h | h <;> simp [h]
    have hpne : dirLookup s.dirs p ≠ some .SKIPPED_EXCLUDE := by
      rcases hpstat with h | h <;> simp [h]
    have hsdne : ∀ sd ∈ sdP, sd ≠ p := by
      intro sd hsd hh
      obtain ⟨nm, rfl⟩ := hform sd hsd
      have := congrArg List.length hh
      simp at this
    have hsdnr : ∀ sd ∈ sdP, sd ≠ root := by
      intro sd hsd hh
      obtain ⟨nm, rfl⟩ := hform sd hsd
      have h1 := preLength hrootp
      have h2 := congrArg List.length hh
      simp [List.length_append] at h2
      omega
    have hsdprior : ∀ sd ∈ sdP, exclude_subdir sd patterns = true →
        dirLookup s.dirs sd ≠ some .SUCCESSFUL ∧
        dirLookup s.dirs sd ≠ some .SKIPPED_PERMISSION := by
      intro sd hsd hex
      constructor <;> intro hrec
      · rcases inv.db_parent sd _ hrec (Or.inl rfl) with h0 | ⟨hnex, _⟩
        · exact hsdnr sd hsd h0
        · rw [hex] at hnex
          exact Bool.noConfusion hnex
      · rcases inv.db_parent sd _ hrec (Or.inr rfl) with h0 | ⟨hnex, _⟩
        · exact hsdnr sd hsd h0
        · rw [hex] at hnex
          exact Bool.noConfusion hnex
    have hlookp : dirLookup pr.1 p = some .SUCCESSFUL := by
      rw [hlook p, if_neg (fun hh => hsdne p hh.1 rfl), if_pos rfl]
    have hwmem : ∀ q, q ∈ (l1 ++ l2) ++ pr.2 ↔
        (q ∈ l1 ++ l2 ∨ (q ∈ sdP ∧ exclude_subdir q patterns = false)) := by
      intro q
      rw [List.mem_append, hps.1, List.mem_filter]
      constructor
      · rintro (h | ⟨h1, h2⟩)
        · exact Or.inl h
        · right
          exact ⟨h1, by simpa using h2⟩
      · rintro (h | ⟨h1, h2⟩)
        · exact Or.inl h
        · right
          exact ⟨h1, by simp [h2]⟩
    have hkeep : ∀ q, dirLookup s.dirs q = some .SUCCESSFUL →
        dirLookup pr.1 q = some .SUCCESSFUL := by
      intro q hv
      rw [hlook q]
      by_cases h1 : q ∈ sdP ∧ exclude_subdir q patterns = true
      · exact absurd hv (hsdprior q h1.1 h1.2).1
      · rw [if_neg h1]
        by_cases h2 : q = p
        · rw [if_pos h2]
        · rw [if_neg h2]
          exact hv
    have hkeepP : ∀ q, dirLookup s.dirs q = some .SKIPPED_PERMISSION →
        dirLookup pr.1 q = some .SKIPPED_PERMISSION := by
      intro q hv
      rw [hlook q]
      by_cases h1 : q ∈ sdP ∧ exclude_subdir q patterns = true
      · exact absurd hv (hsdprior q h1.1 h1.2).2
      · rw [if_neg h1]
        by_cases h2 : q = p
        · exfalso
          rw [h2] at hv
          exact hpnp hv
        · rw [if_neg h2]
          exact hv
    have f1 : ∀ q ∈ (l1 ++ l2) ++ pr.2, root <+: q := by
      intro q hq
      rcases (hwmem q).mp hq with h | ⟨h1, _⟩
      · exact inv.wait_root q (hmemw q h)
      · obtain ⟨nm, rfl⟩ := hform q h1
        exact preTrans hrootp (List.prefix_append p [nm])
    have f2 : ∀ q ∈ (l1 ++ l2) ++ pr.2, (fsResolve fs (q.drop root.length)).isSome = true := by
      intro q hq
      rcases (hwmem q).mp hq with h | ⟨h1, _⟩
      · exact inv.wait_resolve q (hmemw q h)
      · rw [hsdP] at h1
        obtain ⟨e, he, heq⟩ := List.mem_map.mp h1
        rw [← heq]
        exact fsResolve_child fs root p m fls subs hrootp hres e he
    have f3 : ∀ q ∈ (l1 ++ l2) ++ pr.2, q = root ∨ (exclude_subdir q patterns = false ∧
        dirLookup pr.1 q.dropLast = some .SUCCESSFUL) := by
      intro q hq
      rcases (hwmem q).mp hq with h | ⟨h1, hnex⟩
      · rcases inv.wait_origin q (hmemw q h) with h0 | ⟨hnex0, hpar0⟩
        · exact Or.inl h0
        · exact Or.inr ⟨hnex0, hkeep q.dropLast hpar0⟩
      · right
        obtain ⟨nm, rfl⟩ := hform q h1
        refine ⟨hnex, ?_⟩
        rw [List.dropLast_concat]
        exact hlookp
    have f4 : ∀ q ∈ (l1 ++ l2) ++ pr.2, ∀ a, root <+: a → a <+: q → a ≠ q →
        dirLookup pr.1 a = some .SUCCESSFUL := by
      intro q hq a h1 h2 h3
      rcases (hwmem q).mp hq with h | ⟨hq1, _⟩
      · exact hkeep a (inv.wait_anc q (hmemw q h) a h1 h2 h3)
      · obtain ⟨nm, rfl⟩ := hform q hq1
        rcases preConcat h2 with heq | h2b
        · exact absurd heq h3
        · by_cases hap : a = p
          · rw [hap]
            exact hlookp
          · exact hkeep a (inv.wait_anc p hp a h1 h2b hap)
    have f5 : ∀ q st, dirLookup pr.1 q = some st → root <+: q := by
      intro q st h
      rw [hlook q] at h
      by_cases h1 : q ∈ sdP ∧ exclude_subdir q patterns = true
      · obtain ⟨nm, rfl⟩ := hform q h1.1
        exact preTrans hrootp (List.prefix_append p [nm])
      · rw [if_neg h1] at h
        by_cases h2 : q = p
        · rw [h2]
          exact hrootp
        · rw [if_neg h2] at h
          exact inv.db_root q st h
    have f6 : ∀ q st, dirLookup pr.1 q = some st → st ≠ .NOT_SCANNED := by
      intro q st h
      rw [hlook q] at h
      by_cases h1 : q ∈ sdP ∧ exclude_subdir q patterns = true
      · rw [if_pos h1] at h
        injection h with h
        rw [← h]
        decide
      · rw [if_neg h1] at h
        by_cases h2 : q = p
        · rw [if_pos h2] at h
          injection h with h
          rw [← h]
          decide
        · rw [if_neg h2] at h
          exact inv.db_scanned q st h
    have f7 : ∀ q, dirLookup pr.1 q = some .SKIPPED_PERMISSION →
        fsResolve fs (q.drop root.length) = some .denied := by
      intro q h
      rw [hlook q] at h
      by_cases h1 : q ∈ sdP ∧ exclude_subdir q patterns = true
      · rw [if_pos h1] at h
        injection h with h
        exact absurd h (by decide)
      · rw [if_neg h1] at h
        by_cases h2 : q = p
        · rw [if_pos h2] at h
          injection h with h
          exact absurd h (by decide)
        · rw [if_neg h2] at h
          exact inv.db_perm q h
    have f8 : ∀ q, dirLookup pr.1 q = some .SUCCESSFUL →
        ∃ m3 fls3 subs3, fsResolve fs (q.drop root.length) = some (.ok m3 fls3 subs3) := by
      intro q h
      rw [hlook q] at h
      by_cases h1 : q ∈ sdP ∧ exclude_subdir q patterns = true
      · rw [if_pos h1] at h
        injection h with h
        exact absurd h (by decide)
      · rw [if_neg h1] at h
        by_cases h2 : q = p
        · rw [h2]
          exact ⟨m, fls, subs, hres⟩
        · rw [if_neg h2] at h
          exact inv.db_succ q h
    have f9 : ∀ q, dirLookup pr.1 q = some .SKIPPED_EXCLUDE →
        exclude_subdir q patterns = true ∧ q ≠ root ∧
          dirLookup pr.1 q.dropLast = some .SUCCESSFUL := by
      intro q h
      rw [hlook q] at h
      by_cases h1 : q ∈ sdP ∧ exclude_subdir q patterns = true
      · refine ⟨h1.2, hsdnr q h1.1, ?_⟩
        obtain ⟨nm, rfl⟩ := hform q h1.1
        rw [List.dropLast_concat]
        exact hlookp
      · rw [if_neg h1] at h
        by_cases h2 : q = p
        · rw [if_pos h2] at h
          injection h with h
          exact absurd h (by decide)
        · rw [if_neg h2] at h
          obtain ⟨hex, hnr, hpar⟩ := inv.db_excl q h
          exact ⟨hex, hnr, hkeep q.dropLast hpar⟩
    have f10 : ∀ q st, dirLookup pr.1 q = some st →
        st = .SUCCESSFUL ∨ st = .SKIPPED_PERMISSION →
        q = root ∨ (exclude_subdir q patterns = false ∧
          dirLookup pr.1 q.dropLast = some .SUCCESSFUL) := by
      intro q st h hst
      rw [hlook q] at h
      by_cases h1 : q ∈ sdP ∧ exclude_subdir q patterns = true
      · rw [if_pos h1] at h
        injection h with h
        rw [← h] at hst
        rcases hst with h2 | h2 <;> exact absurd h2 (by decide)
      · rw [if_neg h1] at h
        by_cases h2 : q = p
        · subst h2
          by_cases hpr2 : q = root
          · exact Or.inl hpr2
          · rcases inv.wait_origin q hp with h0 | ⟨hnex, hpar⟩
            · exact absurd h0 hpr2
            · exact Or.inr ⟨hnex, hkeep q.dropLast hpar⟩
        · rw [if_neg h2] at h
          rcases inv.db_parent q st h hst with h0 | ⟨hnex, hpar⟩
          · exact Or.inl h0
          · exact Or.inr ⟨hnex, hkeep q.dropLast hpar⟩
    have f11 : ∀ q m2 fls2 subs2, dirLookup pr.1 q = some .SUCCESSFUL →
        fsResolve fs (q.drop root.length) = some (.ok m2 fls2 subs2) →
        ∀ e ∈ subs2,
          (exclude_subdir (q ++ [e.1]) patterns = true →
            dirLookup pr.1 (q ++ [e.1]) = some .SKIPPED_EXCLUDE) ∧
          (exclude_subdir (q ++ [e.1]) patterns = false →
            (q ++ [e.1]) ∈ (l1 ++ l2) ++ pr.2 ∨
              dirLookup pr.1 (q ++ [e.1]) = some .SUCCESSFUL ∨
              dirLookup pr.1 (q ++ [e.1]) = some .SKIPPED_PERMISSION) := by
      intro q m2 fls2 subs2 h hok e he
      rw [hlook q] at h
      by_cases h1 : q ∈ sdP ∧ exclude_subdir q patterns = true
      · rw [if_pos h1] at h
        injection h with h
        exact absurd h (by decide)
      · rw [if_neg h1] at h
        by_cases h2 : q = p
        · subst h2
          rw [hres] at hok
          injection hok with hok
          injection hok with hm hf hs
          subst hs
          have hcm : q ++ [e.1] ∈ sdP := by
            rw [hsdP]
            exact List.mem_map.mpr ⟨e, he, rfl⟩
          constructor
          · intro hex
            rw [hlook (q ++ [e.1]), if_pos ⟨hcm, hex⟩]
          · intro hnex
            exact Or.inl ((hwmem (q ++ [e.1])).mpr (Or.inr ⟨hcm, hnex⟩))
        · rw [if_neg h2] at h
          obtain ⟨hc1, hc2⟩ := inv.db_children q m2 fls2 subs2 h hok e he
          constructor
          · intro hex
            have hrec := hc1 hex
            rw [hlook (q ++ [e.1])]
            by_cases hc : (q ++ [e.1]) ∈ sdP ∧ exclude_subdir (q ++ [e.1]) patterns = true
            · rw [if_pos hc]
            · rw [if_neg hc]
              by_cases hcp : q ++ [e.1] = p
              · exfalso
                rw [hcp] at hrec
                exact hpne hrec
              · rw [if_neg hcp]
                exact hrec
          · intro hnex
            rcases hc2 hnex with hwm | hsucc | hperm
            · rw [hw] at hwm
              rcases List.mem_append.mp hwm with hin1 | hin2
              · exact Or.inl ((hwmem _).mpr (Or.inl (List.mem_append.mpr (Or.inl hin1))))
              · rcases List.mem_cons.mp hin2 with heq | hin2b
                · right
                  left
                  rw [hlook (q ++ [e.1]),
                    if_neg (fun hh => Bool.noConfusion (hnex.symm.trans hh.2)),
                    if_pos heq]
                · exact Or.inl ((hwmem _).mpr (Or.inl (List.mem_append.mpr (Or.inr hin2b))))
            · exact Or.inr (Or.inl (hkeep _ hsucc))
            · exact Or.inr (Or.inr (hkeepP _ hperm))
    have f12 : ∀ e ∈ s.files ++ fls.map (fun f => (p, f)),
        dirLookup pr.1 e.1 = some .SUCCESSFUL := by
      intro e he
      rcases List.mem_append.mp he with h1 | h2
      · exact hkeep e.1 (inv.files_succ e h1)
      · obtain ⟨f, hf, heq⟩ := List.mem_map.mp h2
        rw [← heq]
        show dirLookup pr.1 p = some .SUCCESSFUL
        exact hlookp
    have f13 : root ∈ (l1 ++ l2) ++ pr.2 ∨
        dirLookup pr.1 root = some .SUCCESSFUL ∨
        dirLookup pr.1 root = some .SKIPPED_PERMISSION := by
      rcases inv.root_live with hrw | hrs | hrp
      · rw [hw] at hrw
        rcases List.mem_append.mp hrw with h | h
        · exact Or.inl ((hwmem root).mpr (Or.inl (List.mem_append.mpr (Or.inl h))))
        · rcases List.mem_cons.mp h with heq | h2
          · right
            left
            rw [heq]
            exact hlookp
          · exact Or.inl ((hwmem root).mpr (Or.inl (List.mem_append.mpr (Or.inr h2))))
      · exact Or.inr (Or.inl (hkeep root hrs))
      · exact Or.inr (Or.inr (hkeepP root hrp))
    exact ⟨f1, f2, f3, f4, f5, f6, f7, f8, f9, f10, f11, f12, f13⟩

theorem ScanInv_reach (fs : FsNode) (root : List String)
    (patterns : List (List String → Bool)) (s : ScanState)
    (h : ScanReach fs root patterns s) : ScanInv fs root patterns s := by
  induction h with
  | refl => exact ScanInv_init fs root patterns
  | tail hab hbc ih => exact ScanInv_step ih hbc

theorem scan_no_descendants (fs : FsNode) (root : List String)
    (patterns : List (List String → Bool)) (s : ScanState)
    (inv : ScanInv fs root patterns s) (q : List String)
    (hq : dirLookup s.dirs q = some .SKIPPED_EXCLUDE ∨
      dirLookup s.dirs q = some .SKIPPED_PERMISSION) :
    ∀ d, q <+: d → d ≠ q → d ∉ s.waiting ∧ dirLookup s.dirs d = none := by
  have hqrec : ∃ st, dirLookup s.dirs q = some st := by
    rcases hq with h | h
    · exact ⟨_, h⟩
    · exact ⟨_, h⟩
  obtain ⟨stq, hqr⟩ := hqrec
  have hqroot : root <+: q := inv.db_root q stq hqr
  have hqns : dirLookup s.dirs q ≠ some .SUCCESSFUL := by
    rcases hq with h | h <;> rw [h] <;> simp
  have main : ∀ n d, d.length = n → q <+: d → d ≠ q →
      d ∉ s.waiting ∧ dirLookup s.dirs d = none := by
    intro n
    induction n using Nat.strong_induction_on with
    | _ n ih =>
      intro d hlen hpre hne
      have hparent : dirLookup s.dirs d.dropLast ≠ some .SUCCESSFUL := by
        by_cases hdq : d.dropLast = q
        · rw [hdq]
          exact hqns
        · have hpre2 : q <+: d.dropLast := preDropLast hpre (fun hh => hne hh.symm)
          have hdne : d ≠ [] := by
            intro hh
            rw [hh] at hpre
            have := preLength hpre
            simp at this
            exact hne (by rw [hh, this])
          have hlt : d.dropLast.length < n := by
            rw [← hlen, List.length_dropLast]
            have hdl : 0 < d.length := List.length_pos.mpr hdne
            omega
          have hnone := (ih d.dropLast.length hlt d.dropLast rfl hpre2 hdq).2
          rw [hnone]
          simp
      have hdnr : d ≠ root := by
        intro hh
        rw [hh] at hpre
        have hqroot2 : q = root := preAntisymm hpre hqroot
        exact hne (by rw [hh, hqroot2])
      constructor
      · intro hdw
        rcases inv.wait_origin d hdw with h0 | ⟨_, hpar⟩
        · exact hdnr h0
        · exact hparent hpar
      · rcases hrec : dirLookup s.dirs d with _ | st
        · rfl
        · exfalso
          cases st with
          | NOT_SCANNED => exact inv.db_scanned d _ hrec rfl
          | SUCCESSFUL =>
            rcases inv.db_parent d _ hrec (Or.inl rfl) with h0 | ⟨_, hpar⟩
            · exact hdnr h0
            · exact hparent hpar
          | SKIPPED_PERMISSION =>
            rcases inv.db_parent d _ hrec (Or.inr rfl) with h0 | ⟨_, hpar⟩
            · exact hdnr h0
            · exact hparent hpar
          | SKIPPED_EXCLUDE =>
            obtain ⟨_, _, hpar⟩ := inv.db_excl d hrec
            exact hparent hpar
  intro d h1 h2
  exact main d.length d rfl h1 h2

/-- C3. In every state any completion order of the `scan_path` worker
pool can reach: a subdirectory of a successfully scanned directory
whose full path matches an exclusion pattern is recorded with
`scan_status` `SKIPPED_EXCLUDE` by its parent's drain step; a matching
path other than the root is never in the waiting set (never submitted
as a `_process_dir` task); and every `SKIPPED_EXCLUDE` record matches
a pattern, is not itself waiting, has no descendant ever visited (no
descendant is waiting or has any record), and never appears as the
parent of a successfully or permission-skipped scanned directory. -/
theorem scan_excluded_spec (fs : FsNode) (root : List String)
    (patterns : List (List String → Bool)) (s : ScanState)
    (hreach : ScanReach fs root patterns s) :
    (∀ q m fls subs, dirLookup s.dirs q = some .SUCCESSFUL →
        fsResolve fs (q.drop root.length) = some (.ok m fls subs) →
        ∀ e ∈ subs, exclude_subdir (q ++ [e.1]) patterns = true →
          dirLookup s.dirs (q ++ [e.1]) = some .SKIPPED_EXCLUDE)
    ∧ (∀ p ∈ s.waiting, exclude_subdir p patterns = true → p = root)
    ∧ (∀ q, dirLookup s.dirs q = some .SKIPPED_EXCLUDE →
        exclude_subdir q patterns = true ∧ q ∉ s.waiting
        ∧ (∀ d, q <+: d → d ≠ q → d ∉ s.waiting ∧ dirLookup s.dirs d = none)
        ∧ (∀ r st, dirLookup s.dirs r = some st →
            st = .SUCCESSFUL ∨ st = .SKIPPED_PERMISSION → r.dropLast ≠ q)) := by
  have inv := ScanInv_reach fs root patterns s hreach
  refine ⟨?_, ?_, ?_⟩
  · intro q m fls subs hsucc hok e he hex
    exact (inv.db_children q m fls subs hsucc hok e he).1 hex
  · intro p hp hex
    rcases inv.wait_origin p hp with h | ⟨hnex, _⟩
    · exact h
    · rw [hex] at hnex
      exact Bool.noConfusion hnex
  · intro q hq
    obtain ⟨hex, hnr, _⟩ := inv.db_excl q hq
    refine ⟨hex, ?_, ?_, ?_⟩
    · intro hqw
      rcases inv.wait_origin q hqw with h | ⟨hnex, _⟩
      · exact hnr h
      · rw [hex] at hnex
        exact Bool.noConfusion hnex
    · exact scan_no_descendants fs root patterns s inv q (Or.inl hq)
    · intro r st hr hst hdrop
      rcases inv.db_parent r st hr hst with h0 | ⟨_, hparr⟩
      · rw [h0] at hdrop
        have hqroot : root <+: q := inv.db_root q _ hq
        have hql := preLength hqroot
        rw [← hdrop, List.length_dropLast] at hql
        have hrn : root = [] := List.eq_nil_of_length_eq_zero (by omega)
        apply hnr
        rw [← hdrop, hrn]
        rfl
      · rw [hdrop, hq] at hparr
        simp at hparr

/-- C4. In every state any completion order of the `scan_path` worker
pool can reach: a directory recorded `SKIPPED_PERMISSION` is exactly
one whose stat or listing raised `PermissionError` (it resolves to a
denied node), no file row is recorded under it, and none of its
descendants is ever enumerated, scheduled or recorded; every waiting
task can always complete and be drained (a denial aborts neither the
scan nor any sibling); and once the waiting set is empty, every
non-excluded subdirectory of every successfully scanned directory —
in particular every sibling of a denied directory — has been visited
and recorded `SUCCESSFUL` or `SKIPPED_PERMISSION`. -/
theorem scan_permission_spec (fs : FsNode) (root : List String)
    (patterns : List (List String → Bool)) (s : ScanState)
    (hreach : ScanReach fs root patterns s) :
    (∀ q, dirLookup s.dirs q = some .SKIPPED_PERMISSION →
        fsResolve fs (q.drop root.length) = some .denied
        ∧ (∀ e ∈ s.files, e.1 ≠ q)
        ∧ (∀ d, q <+: d → d ≠ q → d ∉ s.waiting ∧ dirLookup s.dirs d = none))
    ∧ (∀ p ∈ s.waiting, ∃ s2, ScanStep fs root patterns s s2)
    ∧ (s.waiting = [] →
        ∀ q m fls subs, dirLookup s.dirs q = some .SUCCESSFUL →
          fsResolve fs (q.drop root.length) = some (.ok m fls subs) →
          ∀ e ∈ subs, exclude_subdir (q ++ [e.1]) patterns = false →
            dirLookup s.dirs (q ++ [e.1]) = some .SUCCESSFUL ∨
              dirLookup s.dirs (q ++ [e.1]) = some .SKIPPED_PERMISSION) := by
  have inv := ScanInv_reach fs root patterns s hreach
  refine ⟨?_, ?_, ?_⟩
  · intro q hq
    refine ⟨inv.db_perm q hq, ?_,
      scan_no_descendants fs root patterns s inv q (Or.inr hq)⟩
    intro e he heq
    have hv := inv.files_succ e he
    rw [heq, hq] at hv
    simp at hv
  · intro p hp
    have hroot := inv.wait_root p hp
    have hresv := inv.wait_resolve p hp
    obtain ⟨l1, l2, hw⟩ := List.append_of_mem hp
    rcases hnd : fsResolve fs (p.drop root.length) with _ | nd
    · rw [hnd] at hresv
      exact Bool.noConfusion hresv
    · have hchain := dirFromPathDb_isSome (p.length + 1) p s.dirs root hroot (by omega)
      rcases hch : dirFromPathDb (p.length + 1) s.dirs p root with _ | dbc
      · rw [hch] at hchain
        exact Bool.noConfusion hchain
      · exact ⟨_, ScanStep.drain l1 l2 p nd dbc s hw hnd hch⟩
  · intro hempty q m fls subs hsucc hok e he hnex
    rcases (inv.db_children q m fls subs hsucc hok e he).2 hnex with hwm | h | h
    · rw [hempty] at hwm
      exact absurd hwm (List.not_mem_nil _)
    · exact Or.inl h
    · exact Or.inr h

/-- C10. The scan root is never tested against the exclusion
patterns: `scan_path` starts by submitting the root itself as a task
(the initial waiting set is exactly the root), so even when the root's
full path matches an exclusion pattern, in every reachable state the
root is never recorded `SKIPPED_EXCLUDE` — it is either still waiting
or scanned (`SUCCESSFUL` or `SKIPPED_PERMISSION`), and when the scan
completes it has been scanned. -/
theorem scan_root_spec (fs : FsNode) (root : List String)
    (patterns : List (List String → Bool)) (s : ScanState)
    (hreach : ScanReach fs root patterns s)
    (_hmatch : exclude_subdir root patterns = true) :
    (scanInit root).waiting = [root]
    ∧ dirLookup s.dirs root ≠ some .SKIPPED_EXCLUDE
    ∧ (root ∈ s.waiting ∨ dirLookup s.dirs root = some .SUCCESSFUL ∨
        dirLookup s.dirs root = some .SKIPPED_PERMISSION)
    ∧ (s.waiting = [] → dirLookup s.dirs root = some .SUCCESSFUL ∨
        dirLookup s.dirs root = some .SKIPPED_PERMISSION) := by
  have inv := ScanInv_reach fs root patterns s hreach
  refine ⟨rfl, ?_, inv.root_live, ?_⟩
  · intro h
    exact (inv.db_excl root h).2.1 rfl
  · intro hempty
    rcases inv.root_live with h | h | h
    · rw [hempty] at h
      exact absurd h (List.not_mem_nil root)
    · exact Or.inl h
    · exact Or.inr h

/-- Witness for C3: scanning `/r` (one subdirectory `/r/a`, excluded
by the pattern) records `/r/a` as `SKIPPED_EXCLUDE`, never queues it,
and never visits anything below it. -/
theorem scan_excluded_spec_witness :
    dirLookup scanState1.dirs ["r", "a"] = some ScanStatus.SKIPPED_EXCLUDE
    ∧ ["r", "a"] ∉ scanState1.waiting
    ∧ ["r", "a", "b"] ∉ scanState1.waiting
    ∧ dirLookup scanState1.dirs ["r", "a", "b"] = none := by
  have hreach : ScanReach scanFs1 ["r"] scanPats1 scanState1 :=
    Relation.ReflTransGen.single
      (ScanStep.drain [] [] ["r"] (FsNode.ok 0 [] [("a", FsNode.ok 1 [] [])])
        [(["r"], .NOT_SCANNED)] (scanInit ["r"]) rfl rfl rfl)
  have h := scan_excluded_spec scanFs1 ["r"] scanPats1 scanState1 hreach
  have h3 := h.2.2 ["r", "a"] rfl
  have hd := h3.2.2.1 ["r", "a", "b"] ⟨["b"], rfl⟩ (by decide)
  exact ⟨h.1 ["r"] 0 [] [("a", FsNode.ok 1 [] [])] rfl rfl ("a", FsNode.ok 1 [] [])
      (List.mem_singleton.mpr rfl) rfl, h3.2.1, hd.1, hd.2⟩

/-- Witness for C4: scanning `/r` (a file, a denied subdirectory
`/r/a`, a readable sibling `/r/b`) records `/r/a` as
`SKIPPED_PERMISSION` with nothing below it, still visits the sibling
`/r/b`, and a step is always available while tasks are waiting. -/
theorem scan_permission_spec_witness :
    fsResolve scanFs2 ["a"] = some FsNode.denied
    ∧ ["r", "a", "x"] ∉ scanState2.waiting
    ∧ dirLookup scanState2.dirs ["r", "a", "x"] = none
    ∧ (dirLookup scanState2.dirs ["r", "b"] = some ScanStatus.SUCCESSFUL ∨
        dirLookup scanState2.dirs ["r", "b"] = some ScanStatus.SKIPPED_PERMISSION)
    ∧ (∃ s2, ScanStep scanFs2 ["r"] scanPats2 scanState2m s2) := by
  have hstep1 : ScanStep scanFs2 ["r"] scanPats2 (scanInit ["r"]) scanState2m :=
    ScanStep.drain [] [] ["r"]
      (FsNode.ok 0 [("f.txt", ⟨7, 1, 5, 1, 0, 0⟩)]
        [("a", FsNode.denied), ("b", FsNode.ok 2 [] [])])
      [(["r"], .NOT_SCANNED)] (scanInit ["r"]) rfl rfl rfl
  have hstep2 : ScanStep scanFs2 ["r"] scanPats2 scanState2m scanState2b :=
    ScanStep.drain [] [["r", "b"]] ["r", "a"] FsNode.denied
      [(["r"], .SUCCESSFUL), (["r", "a"], .NOT_SCANNED)] scanState2m rfl rfl rfl
  have hstep3 : ScanStep scanFs2 ["r"] scanPats2 scanState2b scanState2 :=
    ScanStep.drain [] [] ["r", "b"] (FsNode.ok 2 [] [])
      [(["r"], .SUCCESSFUL), (["r", "a"], .SKIPPED_PERMISSION), (["r", "b"], .NOT_SCANNED)]
      scanState2b rfl rfl rfl
  have hreachm : ScanReach scanFs2 ["r"] scanPats2 scanState2m :=
    Relation.ReflTransGen.single hstep1
  have hreach : ScanReach scanFs2 ["r"] scanPats2 scanState2 :=
    (hreachm.tail hstep2).tail hstep3
  have h := scan_permission_spec scanFs2 ["r"] scanPats2 scanState2 hreach
  have hm := scan_permission_spec scanFs2 ["r"] scanPats2 scanState2m hreachm
  have hperm := h.1 ["r", "a"] rfl
  have hd := hperm.2.2 ["r", "a", "x"] ⟨["x"], rfl⟩ (by decide)
  refine ⟨hperm.1, hd.1, hd.2, ?_, ?_⟩
  · exact h.2.2 rfl ["r"] 0 [("f.txt", ⟨7, 1, 5, 1, 0, 0⟩)]
      [("a", FsNode.denied), ("b", FsNode.ok 2 [] [])] rfl rfl
      ("b", FsNode.ok 2 [] [])
      (List.mem_cons_of_mem ("a", FsNode.denied)
        (List.mem_cons_self ("b", FsNode.ok 2 [] []) [])) rfl
  · exact hm.2.1 ["r", "a"] (List.mem_cons_self ["r", "a"] [["r", "b"]])

/-- Witness for C10: with a pattern matching every path (including
the root `/r`), the root is still submitted, scanned successfully,
and never recorded `SKIPPED_EXCLUDE`. -/
theorem scan_root_spec_witness :
    (scanInit ["r"]).waiting = [["r"]]
    ∧ exclude_subdir ["r"] scanPats3 = true
    ∧ dirLookup scanState3.dirs ["r"] ≠ some ScanStatus.SKIPPED_EXCLUDE
    ∧ (dirLookup scanState3.dirs ["r"] = some ScanStatus.SUCCESSFUL ∨
        dirLookup scanState3.dirs ["r"] = some ScanStatus.SKIPPED_PERMISSION) := by
  have hreach : ScanReach scanFs3 ["r"] scanPats3 scanState3 :=
    Relation.ReflTransGen.single
      (ScanStep.drain [] [] ["r"] (FsNode.ok 0 [] []) [(["r"], .NOT_SCANNED)]
        (scanInit ["r"]) rfl rfl rfl)
  have h := scan_root_spec scanFs3 ["r"] scanPats3 scanState3 hreach rfl
  exact ⟨h.1, rfl, h.2.1, h.2.2.2 rfl⟩

end Fdu
